import Mathlib

/-!
# Parallel marching squares: embedding of `parallel.c`

The worker routines of `src/parallel.c` (`init_contour_map`, `update_image`,
`sample_grid`, `march`, `rescale_image`) as pure functions over explicit
buffers, and the body of `thread_function` as a step function on the positions of the
workers.

Conventions of the embedding.

* C `int` values are natural numbers (no `int` overflow is modelled, and the
  subtraction `image->x - 1` stops at 0, which differs from C only for an image with
  `x = 0`); the `unsigned char` results (`curr_color`, `k`) are reduced modulo 256 where
  the C code stores them in a byte.
* A buffer reached through a pointer is a total map from index to cell, so a buffer
  handed to a routine carries whatever it held before (freshly allocated memory is an
  arbitrary map). The map also answers an index past the length of the buffer, where
  the C program has no defined result; a theorem that compares two runs therefore
  carries the conditions under which every read stays inside its buffer
  (`sample_grid_reads_in_buffer`, `patch_reads_in_buffer`).
* The slots of the contour map hold `Option ppm_image`: `none` is a slot that holds no
  loaded image, and dereferencing it makes `march` fail.
* The routines take the bounds `thread_id * (double)N / nr_threads` as the exact
  quotient truncated towards zero (`range_start`, `range_end`). The bounds as the code
  computes them, in binary64 arithmetic, are `double_start` and `double_end`. The two
  agree whenever the product is below `2 ^ 53` (`double_start_exact`,
  `double_end_exact`), hence for every `int` thread id when `N ≤ 2 ^ 22`, and they
  differ for larger values; the partition properties are stated for the binary64
  bounds, and a theorem that needs every row to have an owner carries the condition
  `nr_threads * N < 2 ^ 53`. Only the partition idiom uses floating point besides the
  interpolation of `rescale_image`, whose kernel is a parameter.
* The pixels and cells a routine touches are listed by a second definition that runs
  the same loops and collects the indices (`sample_grid_reads`, `march_indices`, ...).
* A `for` loop over `[a, b)` is a left fold over `List.range' a (b - a)`.
* The concurrent workers are followed by their positions in `thread_function`; an
  interleaving is the list of the thread ids that the scheduler picks, one step each
  (`run_threads`).
-/

namespace MarchingSquares

/-! ## Constants -/

def CONTOUR_CONFIG_COUNT : Nat := 16
def STEP : Nat := 8
def SIGMA : Nat := 200
def RESCALE_X : Nat := 2048
def RESCALE_Y : Nat := 2048

/-! ## Data model -/

/-- Modelled from the spec: the type `ppm_pixel` is declared in `helpers.h`, which is
not among the sources; an RGB triple of bytes. -/
structure ppm_pixel where
  red : Fin 256
  green : Fin 256
  blue : Fin 256
deriving DecidableEq

/-- Modelled from the spec: the type `ppm_image` is declared in `helpers.h`, which is
not among the sources; dimensions `x`, `y` and a pixel buffer addressed by a linear
index. -/
structure ppm_image where
  x : Nat
  y : Nat
  data : Nat → ppm_pixel

/-- The sample grid `unsigned char **grid`, addressed as `grid[i][j]`. -/
abbrev Grid := Nat → Nat → Nat

/-- The contour map `ppm_image **map`: slot `k` holds a loaded image or nothing. -/
abbrev ContourMap := Nat → Option ppm_image

/-! ## The partition idiom

Every routine computes its share of `[0, N)` by the same three lines:
```
int start = thread_id * (double)N / nr_threads;
int end = (thread_id + 1) * (double)N / nr_threads;
if (end > N) end = N;
```
-/

/-- The value of `start` for `thread_id` among `nr_threads` workers over `[0, N)`, with
the product and the quotient taken exactly; `double_start` is the binary64 value. -/
def range_start (thread_id N nr_threads : Nat) : Nat :=
  thread_id * N / nr_threads

/-- The value of `end` after the clamp `if (end > N) end = N`, with the product and the
quotient taken exactly; `double_end` is the binary64 value. -/
def range_end (thread_id N nr_threads : Nat) : Nat :=
  let e := (thread_id + 1) * N / nr_threads
  if e > N then N else e

/-- The indices `start, start+1, ..., end-1` visited by `for (i = start; i < end; i++)`. -/
def thread_rows (thread_id N nr_threads : Nat) : List Nat :=
  List.range' (range_start thread_id N nr_threads)
    (range_end thread_id N nr_threads - range_start thread_id N nr_threads)

/-! ## `init_contour_map` -/

/-- `init_contour_map(map, thread_id, nr_threads)`; `read_ppm i` stands for the image
read from `./contours/i.ppm`. -/
def init_contour_map (read_ppm : Nat → ppm_image) (map : ContourMap)
    (thread_id nr_threads : Nat) : ContourMap :=
  (thread_rows thread_id CONTOUR_CONFIG_COUNT nr_threads).foldl
    (fun m i => fun k => if k = i then some (read_ppm i) else m k) map

/-! ## `update_image` -/

/-- The three channel assignments `image->data[idx].red = px.red; ...`. -/
def set_pixel (image : ppm_image) (idx : Nat) (px : ppm_pixel) : ppm_image :=
  { image with
    data := fun k =>
      if k = idx then { red := px.red, green := px.green, blue := px.blue }
      else image.data k }

/-- `update_image(image, contour, x, y)`. -/
def update_image (image contour : ppm_image) (x y : Nat) : ppm_image :=
  (List.range contour.x).foldl
    (fun img i =>
      (List.range contour.y).foldl
        (fun img j =>
          let contour_pixel_index := contour.x * i + j
          let image_pixel_index := (x + i) * image.y + y + j
          set_pixel img image_pixel_index (contour.data contour_pixel_index))
        img)
    image

/-! ## `sample_grid` -/

/-- The byte `curr_color = (red + green + blue) / 3` of a pixel. -/
def curr_color (px : ppm_pixel) : Nat :=
  ((px.red.val + px.green.val + px.blue.val) / 3) % 256

/-- The value stored in a grid cell for a sampled pixel:
`if (curr_color > sigma) 0 else 1`. -/
def grid_value (px : ppm_pixel) (sigma : Nat) : Nat :=
  if curr_color px > sigma then 0 else 1

/-- The assignment `grid[i][j] = v`. -/
def grid_set (grid : Grid) (i j v : Nat) : Grid :=
  fun a b => if a = i ∧ b = j then v else grid a b

/-- The value the first loop of `sample_grid` stores in `grid[i][j]`. -/
def interior_value (image : ppm_image) (step_x step_y sigma i j : Nat) : Nat :=
  grid_value (image.data (i * step_x * image.y + j * step_y)) sigma

/-- The value the second loop of `sample_grid` stores in `grid[i][q]`. -/
def last_column_value (image : ppm_image) (step_x sigma i : Nat) : Nat :=
  grid_value (image.data (i * step_x * image.y + image.x - 1)) sigma

/-- The value the third loop of `sample_grid` stores in `grid[p][j]`. -/
def last_row_value (image : ppm_image) (step_y sigma j : Nat) : Nat :=
  grid_value (image.data ((image.x - 1) * image.y + j * step_y)) sigma

/-- `sample_grid(image, grid, thread_id, nr_threads, step_x, step_y, sigma)`: the grid
after the call. -/
def sample_grid (image : ppm_image) (grid : Grid)
    (thread_id nr_threads step_x step_y sigma : Nat) : Grid :=
  let p := image.x / step_x
  let q := image.y / step_y
  let g1 := (thread_rows thread_id p nr_threads).foldl
    (fun g i =>
      (List.range q).foldl
        (fun g j =>
          grid_set g i j (grid_value (image.data (i * step_x * image.y + j * step_y)) sigma))
        g)
    grid
  let g2 := (thread_rows thread_id p nr_threads).foldl
    (fun g i =>
      grid_set g i q (grid_value (image.data (i * step_x * image.y + image.x - 1)) sigma))
    g1
  (List.range q).foldl
    (fun g j =>
      grid_set g p j (grid_value (image.data ((image.x - 1) * image.y + j * step_y)) sigma))
    g2

/-! ## `march` -/

/-- The byte `k = 8 * grid[i][j] + 4 * grid[i][j + 1] + 2 * grid[i + 1][j + 1]
+ 1 * grid[i + 1][j]` computed by `march` for the cell `(i, j)`. -/
def config (grid : Grid) (i j : Nat) : Nat :=
  (8 * grid i j + 4 * grid i (j + 1) + 2 * grid (i + 1) (j + 1) + 1 * grid (i + 1) j) % 256

/-- One iteration of the inner loop of `march`:
`update_image(image, contour_map[k], i * step_x, j * step_y)`. -/
def march_cell (grid : Grid) (contour_map : ContourMap) (step_x step_y : Nat)
    (i : Nat) (image : ppm_image) (j : Nat) : Option ppm_image :=
  match contour_map (config grid i j) with
  | none => none
  | some contour => some (update_image image contour (i * step_x) (j * step_y))

/-- `march(image, grid, contour_map, thread_id, nr_threads, step_x, step_y)`: the image
after the call, or `none` when a slot of the contour map without an image is used. -/
def march (image : ppm_image) (grid : Grid) (contour_map : ContourMap)
    (thread_id nr_threads step_x step_y : Nat) : Option ppm_image :=
  let p := image.x / step_x
  let q := image.y / step_y
  (thread_rows thread_id p nr_threads).foldlM
    (fun img i => (List.range q).foldlM (march_cell grid contour_map step_x step_y i) img)
    image

/-! ## `rescale_image` and `init_resources` -/

/-- What a call of `rescale_image` leaves behind: `working` is the image that
`*new_image` designates after the call, `scaled` is the content of the buffer that
`*new_image` designated before the call. -/
structure rescaled where
  working : ppm_image
  scaled : ppm_image

/-- `rescale_image(image, &new_image, thread_id, nr_threads)`. `new_image` is the buffer
that `*new_image` designates before the call. The interpolation kernel `sample_bicubic`
of `helpers.h` and the float quotient `(float)a / (float)b` are parameters. -/
def rescale_image {F : Type} (float_div : Nat → Nat → F)
    (sample_bicubic : ppm_image → F → F → ppm_pixel)
    (image new_image : ppm_image) (thread_id nr_threads : Nat) : rescaled :=
  if image.x ≤ RESCALE_X ∧ image.y ≤ RESCALE_Y then
    { working := image, scaled := new_image }
  else
    let out := (thread_rows thread_id new_image.x nr_threads).foldl
      (fun img i =>
        (List.range new_image.y).foldl
          (fun img j =>
            let u := float_div i (new_image.x - 1)
            let v := float_div j (new_image.y - 1)
            set_pixel img (i * new_image.y + j) (sample_bicubic image u v))
          img)
      new_image
    { working := out, scaled := out }

/-- The buffers `init_resources` hands to the workers. -/
structure resources where
  contour_map : ContourMap
  scaled_image : ppm_image
  grid : Grid

/-- `init_resources(&contour_map, &scaled_image, &grid)`. The allocations are not
initialised: `heap_pixels` and `heap_cells` are what the fresh pixel buffer and grid
rows happen to hold, and no slot of the contour map holds an image yet. -/
def init_resources (heap_pixels : Nat → ppm_pixel) (heap_cells : Grid) : resources :=
  { contour_map := fun _ => none
    scaled_image := { x := RESCALE_X, y := RESCALE_Y, data := heap_pixels }
    grid := heap_cells }

/-! ## The phases of `thread_function`

The barriers of `thread_function` separate the phases, so a run is: every worker's
`init_contour_map` and `rescale_image`, then every worker's `sample_grid`, then every
worker's `march`. Within a phase the workers are run one after the other in the order
given by a list of thread ids. -/

/-- Phase 0 for the workers listed in `order`. -/
def init_contour_map_all (read_ppm : Nat → ppm_image) (map : ContourMap)
    (order : List Nat) (nr_threads : Nat) : ContourMap :=
  order.foldl (fun m t => init_contour_map read_ppm m t nr_threads) map

/-- Phase 2 for the workers listed in `order`. -/
def sample_grid_all (image : ppm_image) (grid : Grid) (order : List Nat)
    (nr_threads step_x step_y sigma : Nat) : Grid :=
  order.foldl (fun g t => sample_grid image g t nr_threads step_x step_y sigma) grid

/-- Phase 3 for the workers listed in `order`. -/
def march_all (image : ppm_image) (grid : Grid) (contour_map : ContourMap)
    (order : List Nat) (nr_threads step_x step_y : Nat) : Option ppm_image :=
  order.foldlM (fun img t => march img grid contour_map t nr_threads step_x step_y) image

/-- Phases 2 and 3: `sample_grid` for all workers, then `march` for all workers. -/
def sample_then_march (image : ppm_image) (grid : Grid) (contour_map : ContourMap)
    (order_sample order_march : List Nat) (nr_threads step_x step_y sigma : Nat) :
    Option ppm_image :=
  march_all image (sample_grid_all image grid order_sample nr_threads step_x step_y sigma)
    contour_map order_march nr_threads step_x step_y

/-- The grid that sampling produces, cell by cell: interior cells from the sample
points, `grid[i][q]` from the second loop, `grid[p][j]` from the third loop, every
other cell as it was in `grid`. -/
def sampled_grid (image : ppm_image) (grid : Grid) (step_x step_y sigma : Nat) : Grid :=
  fun a b =>
    if a = image.x / step_x ∧ b < image.y / step_y then last_row_value image step_y sigma b
    else if a < image.x / step_x ∧ b = image.y / step_y then
      last_column_value image step_x sigma a
    else if a < image.x / step_x ∧ b < image.y / step_y then
      interior_value image step_x step_y sigma a b
    else grid a b

/-- The pixels of the block that `march` stamps for the cell `(i, j)`: rows
`i * step_x + a`, columns `j * step_y + b` of an image with rows of length `Y`. -/
def cell_block (step_x step_y Y i j idx : Nat) : Prop :=
  ∃ a < step_x, ∃ b < step_y, idx = (i * step_x + a) * Y + j * step_y + b

/-- The contour pixel that lands on the image pixel `idx`: with `r = idx / Y` and
`c = idx % Y`, the pixel of index `contour.x * (r % step_x) + c % step_y` of the
contour selected by the cell `(r / step_x, c / step_y)`; `orig idx` where that slot of
the contour map holds no image. -/
def patch_pixel (grid : Grid) (contour_map : ContourMap) (step_x step_y Y : Nat)
    (orig : Nat → ppm_pixel) (idx : Nat) : ppm_pixel :=
  match contour_map (config grid (idx / Y / step_x) (idx % Y / step_y)) with
  | some contour => contour.data (contour.x * (idx / Y % step_x) + idx % Y % step_y)
  | none => orig idx

/-- The loop body `F` succeeds exactly when `okp`, keeps the dimensions `X`, `Y`,
overwrites the pixels in `Pset` by `V` and leaves every other pixel alone. -/
def writes_as (F : ppm_image → Option ppm_image) (X Y : Nat) (V : Nat → ppm_pixel)
    (Pset : Nat → Prop) (okp : Prop) : Prop :=
  ∀ s : ppm_image, s.x = X → s.y = Y →
    ((F s).isSome = true ↔ okp) ∧
    ∀ s2, F s = some s2 →
      (s2.x = X ∧ s2.y = Y) ∧
      (∀ idx, Pset idx → s2.data idx = V idx) ∧
      (∀ idx, ¬ Pset idx → s2.data idx = s.data idx)

/-! ## The cells and pixels a routine touches

The loops of the routines above once more, this time collecting the index of every
access in program order instead of performing it. -/

/-- The indices `k` of the reads `image->data[k]` made by `sample_grid`: the first loop,
then the second loop (`grid[i][q]`), then the third loop (`grid[p][j]`). -/
def sample_grid_reads (image : ppm_image) (thread_id nr_threads step_x step_y : Nat) :
    List Nat :=
  let p := image.x / step_x
  let q := image.y / step_y
  (thread_rows thread_id p nr_threads).flatMap
      (fun i => (List.range q).map (fun j => i * step_x * image.y + j * step_y))
    ++ (thread_rows thread_id p nr_threads).map
      (fun i => i * step_x * image.y + image.x - 1)
    ++ (List.range q).map (fun j => (image.x - 1) * image.y + j * step_y)

/-- The cells `(a, b)` of the assignments `grid[a][b] = ...` made by `sample_grid`. -/
def sample_grid_cells (image : ppm_image) (thread_id nr_threads step_x step_y : Nat) :
    List (Nat × Nat) :=
  let p := image.x / step_x
  let q := image.y / step_y
  (thread_rows thread_id p nr_threads).flatMap
      (fun i => (List.range q).map (fun j => (i, j)))
    ++ (thread_rows thread_id p nr_threads).map (fun i => (i, q))
    ++ (List.range q).map (fun j => (p, j))

/-- The cells `(a, b)` of the reads `grid[a][b]` made by `march`: for each cell
`(i, j)` of the worker, `grid[i][j]`, `grid[i][j + 1]`, `grid[i + 1][j + 1]` and
`grid[i + 1][j]`. -/
def march_cells (image : ppm_image) (thread_id nr_threads step_x step_y : Nat) :
    List (Nat × Nat) :=
  let p := image.x / step_x
  let q := image.y / step_y
  (thread_rows thread_id p nr_threads).flatMap
    (fun i => (List.range q).flatMap
      (fun j => [(i, j), (i, j + 1), (i + 1, j + 1), (i + 1, j)]))

/-- The values of `image_pixel_index` in `update_image(image, contour, x, y)`. -/
def update_image_indices (image contour : ppm_image) (x y : Nat) : List Nat :=
  (List.range contour.x).flatMap
    (fun i => (List.range contour.y).map (fun j => (x + i) * image.y + y + j))

/-- The indices of the image pixels that `march` assigns for the worker `thread_id`;
an iteration whose slot of the contour map holds no image assigns none. -/
def march_indices (image : ppm_image) (grid : Grid) (contour_map : ContourMap)
    (thread_id nr_threads step_x step_y : Nat) : List Nat :=
  let p := image.x / step_x
  let q := image.y / step_y
  (thread_rows thread_id p nr_threads).flatMap
    (fun i => (List.range q).flatMap
      (fun j =>
        match contour_map (config grid i j) with
        | none => []
        | some contour => update_image_indices image contour (i * step_x) (j * step_y)))

/-- The indices `i * (*new_image)->y + j` of the destination pixels that
`rescale_image` assigns for the worker `thread_id`. -/
def rescale_image_indices (image new_image : ppm_image) (thread_id nr_threads : Nat) :
    List Nat :=
  if image.x ≤ RESCALE_X ∧ image.y ≤ RESCALE_Y then []
  else
    (thread_rows thread_id new_image.x nr_threads).flatMap
      (fun i => (List.range new_image.y).map (fun j => i * new_image.y + j))

/-- The number of row pointers `init_resources` allocates for the grid:
`(p + 1)` with `p = (*scaled_image)->x / STEP`. -/
def grid_alloc_rows : Nat := RESCALE_X / STEP + 1

/-- The number of cells `init_resources` allocates for each row of the grid:
`(q + 1)` with `q = (*scaled_image)->y / STEP`. -/
def grid_alloc_cols : Nat := RESCALE_Y / STEP + 1

/-! ## Double-precision arithmetic of the partition idiom

The expression `thread_id * (double)N / nr_threads` is evaluated in IEEE 754 binary64
with round-to-nearest, ties-to-even: the two integers are converted exactly, their
product is rounded, the quotient of that double by the converted `nr_threads` is
rounded, and the conversion to `int` truncates. A non-negative double is kept as the
fraction `sig * 2 ^ down / 2 ^ up`. The exponent range of binary64 plays no role: the
values that occur lie between `2 ^ (-31)` and `2 ^ 62`. -/

/-- The number of halvings that bring `m` below 2, with `fuel` halvings at most. -/
def log2_fuel : Nat → Nat → Nat
  | 0, _ => 0
  | fuel + 1, m => if m < 2 then 0 else log2_fuel fuel (m / 2) + 1

/-- The position of the leading bit of `m`: `2 ^ floor_log2 m ≤ m < 2 ^ (floor_log2 m + 1)`
for `m ≥ 1`. -/
def floor_log2 (m : Nat) : Nat := log2_fuel m m

/-- The integer nearest to `num / den`, the even one when two are equally near. -/
def round_half_even (num den : Nat) : Nat :=
  let q := num / den
  let r := num % den
  if 2 * r < den then q
  else if den < 2 * r then q + 1
  else if q % 2 = 0 then q else q + 1

/-- A non-negative binary64 value, `sig * 2 ^ down / 2 ^ up`. -/
structure binary64 where
  sig : Nat
  up : Nat
  down : Nat

/-- The scaling `(up, down)` that brings `num / den` into the binade of 53-bit
significands: `2 ^ 52 ≤ (num * 2 ^ up) / (den * 2 ^ down) < 2 ^ 53`. With
`L = floor_log2 num` and `M = floor_log2 den` the quotient lies in
`[2 ^ (L - M - 1), 2 ^ (L - M + 1))`; the comparison decides between the two binades. -/
def binade_shifts (num den : Nat) : Nat × Nat :=
  let L := floor_log2 num
  let M := floor_log2 den
  if den * 2 ^ (L - M) ≤ num * 2 ^ (M - L) then (52 + M - L, L - (52 + M))
  else if 0 < L - (52 + M) then (0, L - (52 + M) - 1)
  else (52 + M - L + 1, 0)

/-- The binary64 value nearest to the fraction `num / den` (ties to even). -/
def round_double (num den : Nat) : binary64 :=
  let s := binade_shifts num den
  { sig := round_half_even (num * 2 ^ s.1) (den * 2 ^ s.2), up := s.1, down := s.2 }

/-- The product `a * (double)b` of two converted `int` values. -/
def double_mul (a b : Nat) : binary64 := round_double (a * b) 1

/-- The quotient `x / n` of a double by a converted `int`. -/
def double_div (x : binary64) (n : Nat) : binary64 :=
  round_double (x.sig * 2 ^ x.down) (n * 2 ^ x.up)

/-- The conversion of a double to `int`: truncation. -/
def double_to_int (x : binary64) : Nat := x.sig * 2 ^ x.down / 2 ^ x.up

/-- The `int start = thread_id * (double)N / nr_threads` of the partition idiom in
binary64 arithmetic. -/
def double_start (thread_id N nr_threads : Nat) : Nat :=
  double_to_int (double_div (double_mul thread_id N) nr_threads)

/-- The `int end = (thread_id + 1) * (double)N / nr_threads` of the partition idiom in
binary64 arithmetic, before the clamp. -/
def double_end_unclamped (thread_id N nr_threads : Nat) : Nat :=
  double_to_int (double_div (double_mul (thread_id + 1) N) nr_threads)

/-- The value of `end` in binary64 arithmetic after `if (end > N) end = N`. -/
def double_end (thread_id N nr_threads : Nat) : Nat :=
  if double_end_unclamped thread_id N nr_threads > N then N
  else double_end_unclamped thread_id N nr_threads

/-! ## The barrier protocol of `thread_function`

The workers of `main` run `thread_function` concurrently. A worker is followed by its
position in the body of `thread_function`; the scheduler picks the worker that takes the
next step, so an interleaving is a list of thread ids. -/

/-- The calls in the body of `thread_function`. -/
inductive statement where
  | init_contour_map
  | rescale_image
  | pthread_barrier_wait
  | sample_grid
  | march
  | write_ppm
  | pthread_exit
deriving DecidableEq

/-- The body of `thread_function`: its statement number `k`, in program order.
Statement 7 is `if (args.thread_id == 0) write_ppm(...)`; a worker that has reached
`pthread_exit` stays there. -/
def thread_function : Nat → statement
  | 0 => statement.init_contour_map
  | 1 => statement.rescale_image
  | 2 => statement.pthread_barrier_wait
  | 3 => statement.sample_grid
  | 4 => statement.pthread_barrier_wait
  | 5 => statement.march
  | 6 => statement.pthread_barrier_wait
  | 7 => statement.write_ppm
  | _ => statement.pthread_exit

/-- The workers created by `main` while they run `thread_function`. `pc t = 2 * k` when
worker `t` is about to execute statement `k`, and `pc t = 2 * k + 1` when it has entered
statement `k` and not left it yet (it is inside the routine, or blocked inside
`pthread_barrier_wait`). `waiting` is the number of callers the barrier holds blocked. -/
structure threads where
  pc : Nat → Nat
  waiting : Nat

/-- Worker `t` has entered statement `k` of `thread_function` or is already past it. -/
def started (k : Nat) (s : threads) (t : Nat) : Prop := 2 * k + 1 ≤ s.pc t

/-- Worker `t` has left statement `k` of `thread_function`. -/
def finished (k : Nat) (s : threads) (t : Nat) : Prop := 2 * k + 2 ≤ s.pc t

/-- Worker `t` is blocked inside a call of `pthread_barrier_wait`. -/
def blocked (s : threads) (t : Nat) : Prop :=
  thread_function (s.pc t / 2) = statement.pthread_barrier_wait ∧ s.pc t % 2 = 1

instance (k : Nat) (s : threads) (t : Nat) : Decidable (started k s t) :=
  Nat.decLe (2 * k + 1) (s.pc t)

instance (k : Nat) (s : threads) (t : Nat) : Decidable (finished k s t) :=
  Nat.decLe (2 * k + 2) (s.pc t)

instance (s : threads) (t : Nat) : Decidable (blocked s t) :=
  instDecidableAnd

/-- Modelled from the spec: `pthread_barrier_wait` belongs to the thread library, not to
the sources. Section 4.6 makes the barrier a full rendezvous (no worker proceeds past it
until all workers have arrived), and `main` creates it for `nr_threads` callers by
`pthread_barrier_init(&barrier, NULL, nr_threads)`. So the call of worker `t` blocks it
while fewer than `nr_threads` callers have arrived; the caller that completes the count
returns at once, every blocked caller returns with it, and the barrier is empty again
for its next use. -/
def pthread_barrier_wait (nr_threads : Nat) (s : threads) (t : Nat) : threads :=
  if s.waiting + 1 < nr_threads then
    { pc := fun u => if u = t then s.pc t + 1 else s.pc u
      waiting := s.waiting + 1 }
  else
    { pc := fun u =>
        if u = t then s.pc t + 2
        else if blocked s u then s.pc u + 1
        else s.pc u
      waiting := 0 }

/-- The next step of worker `t` in `thread_function` when the scheduler picks it: it
enters or leaves the routine of its statement, calls `pthread_barrier_wait`, or, at
statement 7 with `thread_id != 0`, skips `write_ppm`. Nothing happens when `t` is not
one of the `nr_threads` workers, is blocked in the barrier, or is at `pthread_exit`. -/
def thread_step (nr_threads : Nat) (s : threads) (t : Nat) : threads :=
  if nr_threads ≤ t then s
  else if thread_function (s.pc t / 2) = statement.pthread_exit then s
  else if thread_function (s.pc t / 2) = statement.pthread_barrier_wait then
    if s.pc t % 2 = 0 then pthread_barrier_wait nr_threads s t else s
  else if thread_function (s.pc t / 2) = statement.write_ppm ∧ s.pc t % 2 = 0 ∧ t ≠ 0 then
    { s with pc := fun u => if u = t then s.pc t + 2 else s.pc u }
  else
    { s with pc := fun u => if u = t then s.pc t + 1 else s.pc u }

/-- The workers as `main` creates them: each at the first statement of
`thread_function`, nobody in the barrier. A worker created later than another is one
that the scheduler picks later. -/
def threads_created : threads := { pc := fun _ => 0, waiting := 0 }

/-- The state of the `nr_threads` workers after the scheduler has picked the workers of
`schedule` one after the other; every interleaving is such a schedule. -/
def run_threads (nr_threads : Nat) (schedule : List Nat) : threads :=
  schedule.foldl (thread_step nr_threads) threads_created

/-- The invariant of `thread_step`: no worker is past `pthread_exit`, all workers are
between the same two barriers, and `waiting` counts the blocked workers. -/
def phase_inv (n : Nat) (s : threads) : Prop :=
  (∀ t, t < n → s.pc t ≤ 16) ∧
  (∀ t u, t < n → u < n →
    (6 ≤ s.pc t → 6 ≤ s.pc u) ∧ (10 ≤ s.pc t → 10 ≤ s.pc u) ∧ (14 ≤ s.pc t → 14 ≤ s.pc u)) ∧
  s.waiting =
    ((Finset.range n).filter (fun u => s.pc u = 5 ∨ s.pc u = 9 ∨ s.pc u = 13)).card

/-! ## Concrete inputs -/

def white_pixel : ppm_pixel := { red := 255, green := 255, blue := 255 }

def black_pixel : ppm_pixel := { red := 0, green := 0, blue := 0 }

/-- An all-white image of 8 x 8 pixels: one cell of the step-8 grid. -/
def white_8x8 : ppm_image := { x := 8, y := 8, data := fun _ => white_pixel }

/-- A 4 x 4 image with black pixels at the indices divisible by 3. -/
def dotted_4x4 : ppm_image :=
  { x := 4, y := 4, data := fun idx => if idx % 3 = 0 then black_pixel else white_pixel }

/-- An image with `x = 8`, `y = 16` (rows of 16 pixels), white except for the last
pixel of row 0 (index 15), which is black. -/
def wide_8x16 : ppm_image :=
  { x := 8, y := 16, data := fun idx => if idx = 15 then black_pixel else white_pixel }

/-- An all-white image of 5 x 5 pixels. -/
def white_5x5 : ppm_image := { x := 5, y := 5, data := fun _ => white_pixel }

/-- A white image with `x = 2`, `y = 3`. -/
def white_2x3 : ppm_image := { x := 2, y := 3, data := fun _ => white_pixel }

/-- An all-white image of 512 x 512 pixels. -/
def white_512 : ppm_image := { x := 512, y := 512, data := fun _ => white_pixel }

/-- A grid buffer whose bytes are all `0xFF`. -/
def grid_ff : Grid := fun _ _ => 255

/-- A grid buffer whose bytes are all 0. -/
def grid_00 : Grid := fun _ _ => 0

/-- A grid buffer whose bytes are all 1. -/
def grid_01 : Grid := fun _ _ => 1

/-- A contour image of dimensions `sx` x `sy` whose pixel of index `idx` is
`(k, idx, 0)` (modulo 256). -/
def tag_patch (sx sy k : Nat) : ppm_image :=
  { x := sx, y := sy,
    data := fun idx =>
      { red := ⟨k % 256, Nat.mod_lt k (by decide)⟩,
        green := ⟨idx % 256, Nat.mod_lt idx (by decide)⟩,
        blue := 0 } }

/-- A contour map with the 16 slots loaded with `tag_patch sx sy k`. -/
def tag_atlas (sx sy : Nat) : ContourMap :=
  fun k => if k < CONTOUR_CONFIG_COUNT then some (tag_patch sx sy k) else none

/-- An all-white image with `x = 72`, `y = 8` (72 rows of 8 pixels). -/
def white_72x8 : ppm_image := { x := 72, y := 8, data := fun _ => white_pixel }

/-- An all-white image of 2048 x 2048 pixels. -/
def white_2048 : ppm_image := { x := 2048, y := 2048, data := fun _ => white_pixel }

/-- An all-white image of 4096 x 4096 pixels. -/
def white_4096 : ppm_image := { x := 4096, y := 4096, data := fun _ => white_pixel }

/-- Two workers taking turns, 15 steps each. -/
def round_robin_2 : List Nat :=
  [0, 1, 0, 1, 0, 1, 0, 1, 0, 1, 0, 1, 0, 1, 0, 1, 0, 1, 0, 1, 0, 1, 0, 1, 0, 1, 0, 1, 0, 1]

/-! ## Partition lemmas -/

theorem range_end_eq (t N n : Nat) (ht : t < n) :
    range_end t N n = (t + 1) * N / n := by
  unfold range_end
  have h : (t + 1) * N / n ≤ N := by
    apply Nat.div_le_of_le_mul
    exact Nat.mul_le_mul_right N ht
  simp only
  rw [if_neg (Nat.not_lt.mpr h)]

theorem range_end_eq_start (t N n : Nat) (ht : t < n) :
    range_end t N n = range_start (t + 1) N n := by
  rw [range_end_eq t N n ht]; rfl

theorem range_start_mono (N n : Nat) {t t2 : Nat} (h : t ≤ t2) :
    range_start t N n ≤ range_start t2 N n := by
  unfold range_start
  exact Nat.div_le_div_right (Nat.mul_le_mul_right N h)

theorem range_start_zero (N n : Nat) : range_start 0 N n = 0 := by
  simp [range_start]

theorem range_start_full (N n : Nat) (hn : 0 < n) : range_start n N n = N := by
  unfold range_start
  exact Nat.mul_div_cancel_left N hn

theorem range_end_le (t N n : Nat) : range_end t N n ≤ N := by
  unfold range_end
  simp only
  split
  · exact le_refl N
  · omega

theorem range_start_le_end (t N n : Nat) (ht : t < n) :
    range_start t N n ≤ range_end t N n := by
  rw [range_end_eq_start t N n ht]
  exact range_start_mono N n (Nat.le_succ t)

/-- Some worker below `m` owns `k` as soon as `k` lies below `start(m)`. -/
theorem exists_owner_below (N n k : Nat) :
    ∀ m, k < range_start m N n →
      ∃ t, t < m ∧ range_start t N n ≤ k ∧ k < range_start (t + 1) N n := by
  intro m
  induction m with
  | zero =>
    intro h
    rw [range_start_zero] at h
    exact absurd h (Nat.not_lt_zero k)
  | succ m ih =>
    intro h
    by_cases hk : k < range_start m N n
    · obtain ⟨t, ht, h1, h2⟩ := ih hk
      exact ⟨t, Nat.lt_succ_of_lt ht, h1, h2⟩
    · exact ⟨m, Nat.lt_succ_self m, Nat.not_lt.mp hk, h⟩

/-- Every index of `[0, N)` lies in the range of exactly one of the `n` workers. -/
theorem owner_exists_unique (N n k : Nat) (hn : 0 < n) (hk : k < N) :
    ∃! t, t < n ∧ range_start t N n ≤ k ∧ k < range_end t N n := by
  have hfull : k < range_start n N n := by rw [range_start_full N n hn]; exact hk
  obtain ⟨t, ht, h1, h2⟩ := exists_owner_below N n k n hfull
  refine ⟨t, ⟨ht, h1, by rw [range_end_eq_start t N n ht]; exact h2⟩, ?_⟩
  rintro u ⟨hu, hu1, hu2⟩
  rw [range_end_eq_start u N n hu] at hu2
  rcases Nat.lt_trichotomy u t with hlt | heq | hgt
  · have h3 : range_start (u + 1) N n ≤ range_start t N n :=
      range_start_mono N n (Nat.succ_le_of_lt hlt)
    omega
  · exact heq
  · have h3 : range_start (t + 1) N n ≤ range_start u N n :=
      range_start_mono N n (Nat.succ_le_of_lt hgt)
    omega

/-- With the quotients taken exactly, for `N ≥ 1` and `1 ≤ nrThreads ≤ N` the ranges
`[start(t), end(t))` start at 0, are non-decreasing (`start(t) ≤ end(t)`), contiguous
(`end(t) = start(t+1)`), end at `N`, stay inside `[0, N)`, and every index of `[0, N)`
lies in the range of exactly one worker (disjoint, union exactly `[0, N)`). -/
theorem partition_ranges (N nrThreads : Nat) (_hN : 1 ≤ N) (h1 : 1 ≤ nrThreads)
    (_h2 : nrThreads ≤ N) :
    range_start 0 N nrThreads = 0 ∧
    (∀ t, t < nrThreads → range_start t N nrThreads ≤ range_end t N nrThreads) ∧
    (∀ t, t + 1 < nrThreads → range_end t N nrThreads = range_start (t + 1) N nrThreads) ∧
    range_end (nrThreads - 1) N nrThreads = N ∧
    (∀ t k, t < nrThreads → k < range_end t N nrThreads → k < N) ∧
    (∀ k, k < N →
      ∃! t, t < nrThreads ∧ range_start t N nrThreads ≤ k ∧ k < range_end t N nrThreads) := by
  refine ⟨range_start_zero N nrThreads, ?_, ?_, ?_, ?_, ?_⟩
  · intro t ht
    exact range_start_le_end t N nrThreads ht
  · intro t ht
    exact range_end_eq_start t N nrThreads (by omega)
  · rw [range_end_eq_start (nrThreads - 1) N nrThreads (by omega)]
    have : nrThreads - 1 + 1 = nrThreads := by omega
    rw [this]
    exact range_start_full N nrThreads (by omega)
  · intro t k _ hk
    exact Nat.lt_of_lt_of_le hk (range_end_le t N nrThreads)
  · intro k hk
    exact owner_exists_unique N nrThreads k (by omega) hk

/-- The exact-quotient partition of `[0, 5)` among 3 workers. -/
theorem partition_ranges_witness :
    range_start 0 5 3 = 0 ∧
    (∀ t, t < 3 → range_start t 5 3 ≤ range_end t 5 3) ∧
    (∀ t, t + 1 < 3 → range_end t 5 3 = range_start (t + 1) 5 3) ∧
    range_end (3 - 1) 5 3 = 5 ∧
    (∀ t k, t < 3 → k < range_end t 5 3 → k < 5) ∧
    (∀ k, k < 5 → ∃! t, t < 3 ∧ range_start t 5 3 ≤ k ∧ k < range_end t 5 3) :=
  partition_ranges 5 3 (by decide) (by decide) (by decide)

/-! ## Folds of writes, pointwise

A loop whose iteration `a` overwrites the cells `idx` with `P a idx` by a value `V idx`
that depends on the cell only, and leaves every other cell alone. -/

section Folds

variable {σ α ι β : Type}

theorem foldl_preserves (Inv : σ → Prop) (step : σ → α → σ) (A : α → Prop)
    (hInv : ∀ s a, A a → Inv s → Inv (step s a)) :
    ∀ (l : List α) (s : σ), (∀ a ∈ l, A a) → Inv s → Inv (l.foldl step s) := by
  intro l
  induction l with
  | nil => intro s _ hs; exact hs
  | cons b l ih =>
    intro s hA hs
    rw [List.foldl_cons]
    exact ih (step s b) (fun a ha => hA a (List.mem_cons_of_mem b ha))
      (hInv s b (hA b (List.mem_cons_self b l)) hs)

theorem foldl_miss (get : σ → ι → β) (Inv : σ → Prop) (step : σ → α → σ)
    (A : α → Prop) (P : α → ι → Prop)
    (hInv : ∀ s a, A a → Inv s → Inv (step s a))
    (hmiss : ∀ s a idx, A a → Inv s → ¬ P a idx → get (step s a) idx = get s idx) :
    ∀ (l : List α) (s : σ) (idx : ι), (∀ a ∈ l, A a) → Inv s →
      (∀ a ∈ l, ¬ P a idx) → get (l.foldl step s) idx = get s idx := by
  intro l
  induction l with
  | nil => intro s idx _ _ _; rfl
  | cons b l ih =>
    intro s idx hA hs hP
    have hb : A b := hA b (List.mem_cons_self b l)
    rw [List.foldl_cons,
      ih (step s b) idx (fun a ha => hA a (List.mem_cons_of_mem b ha)) (hInv s b hb hs)
        (fun a ha => hP a (List.mem_cons_of_mem b ha))]
    exact hmiss s b idx hb hs (hP b (List.mem_cons_self b l))

theorem foldl_hit (get : σ → ι → β) (Inv : σ → Prop) (step : σ → α → σ)
    (A : α → Prop) (P : α → ι → Prop) (V : ι → β)
    (hInv : ∀ s a, A a → Inv s → Inv (step s a))
    (hhit : ∀ s a idx, A a → Inv s → P a idx → get (step s a) idx = V idx)
    (hmiss : ∀ s a idx, A a → Inv s → ¬ P a idx → get (step s a) idx = get s idx) :
    ∀ (l : List α) (s : σ) (idx : ι), (∀ a ∈ l, A a) → Inv s →
      (∃ a ∈ l, P a idx) → get (l.foldl step s) idx = V idx := by
  intro l
  induction l with
  | nil =>
    intro s idx _ _ h
    obtain ⟨a, ha, _⟩ := h
    exact absurd ha (List.not_mem_nil a)
  | cons b l ih =>
    intro s idx hA hs h
    have hb : A b := hA b (List.mem_cons_self b l)
    have hAl : ∀ a ∈ l, A a := fun a ha => hA a (List.mem_cons_of_mem b ha)
    rw [List.foldl_cons]
    by_cases hl : ∃ a ∈ l, P a idx
    · exact ih (step s b) idx hAl (hInv s b hb hs) hl
    · have hPb : P b idx := by
        obtain ⟨a, ha, hPa⟩ := h
        rcases List.mem_cons.mp ha with rfl | ha2
        · exact hPa
        · exact absurd ⟨a, ha2, hPa⟩ hl
      rw [foldl_miss get Inv step A P hInv hmiss l (step s b) idx hAl (hInv s b hb hs)
        (fun a ha hPa => hl ⟨a, ha, hPa⟩)]
      exact hhit s b idx hb hs hPb

/-- A loop whose iterations may fail succeeds exactly when every iteration is one that
succeeds (`ok a`). -/
theorem foldlM_isSome (Inv : σ → Prop) (f : σ → α → Option σ) (A : α → Prop)
    (ok : α → Prop)
    (hInv : ∀ s a s2, A a → Inv s → f s a = some s2 → Inv s2)
    (hok : ∀ s a, A a → Inv s → ((f s a).isSome ↔ ok a)) :
    ∀ (l : List α) (s : σ), (∀ a ∈ l, A a) → Inv s →
      ((l.foldlM f s).isSome ↔ ∀ a ∈ l, ok a) := by
  intro l
  induction l with
  | nil => intro s _ _; simp
  | cons b l ih =>
    intro s hA hs
    have hb : A b := hA b (List.mem_cons_self b l)
    have hAl : ∀ a ∈ l, A a := fun a ha => hA a (List.mem_cons_of_mem b ha)
    rw [List.foldlM_cons]
    cases hfb : f s b with
    | none =>
      have hnb : ¬ ok b := by
        intro hokb
        have := (hok s b hb hs).mpr hokb
        rw [hfb] at this
        exact absurd this (by simp)
      constructor
      · intro h; exact absurd h (by simp)
      · intro h; exact absurd (h b (List.mem_cons_self b l)) hnb
    | some s2 =>
      have hokb : ok b := (hok s b hb hs).mp (by rw [hfb]; rfl)
      have h2 := ih s2 hAl (hInv s b s2 hb hs hfb)
      simp only [Option.some_bind, Option.bind_eq_bind]
      rw [h2]
      constructor
      · intro h a ha
        rcases List.mem_cons.mp ha with rfl | ha2
        · exact hokb
        · exact h a ha2
      · intro h a ha
        exact h a (List.mem_cons_of_mem b ha)

/-- The pointwise content of a loop whose iterations may fail, when it succeeds. -/
theorem foldlM_pointwise (get : σ → ι → β) (Inv : σ → Prop) (f : σ → α → Option σ)
    (A : α → Prop) (P : α → ι → Prop) (V : ι → β)
    (hInv : ∀ s a s2, A a → Inv s → f s a = some s2 → Inv s2)
    (hhit : ∀ s a s2 idx, A a → Inv s → f s a = some s2 → P a idx → get s2 idx = V idx)
    (hmiss : ∀ s a s2 idx, A a → Inv s → f s a = some s2 → ¬ P a idx →
      get s2 idx = get s idx) :
    ∀ (l : List α) (s s3 : σ), (∀ a ∈ l, A a) → Inv s → l.foldlM f s = some s3 →
      Inv s3 ∧
      (∀ idx, (∃ a ∈ l, P a idx) → get s3 idx = V idx) ∧
      (∀ idx, (∀ a ∈ l, ¬ P a idx) → get s3 idx = get s idx) := by
  intro l
  induction l with
  | nil =>
    intro s s3 _ hs h
    simp only [List.foldlM_nil, Option.pure_def, Option.some.injEq] at h
    subst h
    refine ⟨hs, ?_, fun _ _ => rfl⟩
    rintro idx ⟨a, ha, _⟩
    exact absurd ha (List.not_mem_nil a)
  | cons b l ih =>
    intro s s3 hA hs h
    have hb : A b := hA b (List.mem_cons_self b l)
    have hAl : ∀ a ∈ l, A a := fun a ha => hA a (List.mem_cons_of_mem b ha)
    rw [List.foldlM_cons] at h
    cases hfb : f s b with
    | none =>
      rw [hfb] at h
      exact absurd h (by simp)
    | some s2 =>
      rw [hfb] at h
      simp only [Option.some_bind, Option.bind_eq_bind] at h
      have hs2 : Inv s2 := hInv s b s2 hb hs hfb
      obtain ⟨h3, hH, hM⟩ := ih s2 s3 hAl hs2 h
      refine ⟨h3, ?_, ?_⟩
      · intro idx hex
        by_cases hl : ∃ a ∈ l, P a idx
        · exact hH idx hl
        · have hPb : P b idx := by
            obtain ⟨a, ha, hPa⟩ := hex
            rcases List.mem_cons.mp ha with rfl | ha2
            · exact hPa
            · exact absurd ⟨a, ha2, hPa⟩ hl
          rw [hM idx (fun a ha hPa => hl ⟨a, ha, hPa⟩)]
          exact hhit s b s2 idx hb hs hfb hPb
      · intro idx hall
        rw [hM idx (fun a ha => hall a (List.mem_cons_of_mem b ha))]
        exact hmiss s b s2 idx hb hs hfb (hall b (List.mem_cons_self b l))

end Folds

theorem mem_thread_rows (t N n i : Nat) :
    i ∈ thread_rows t N n ↔ range_start t N n ≤ i ∧ i < range_end t N n := by
  unfold thread_rows
  rw [List.mem_range'_1]
  constructor
  · rintro ⟨h1, h2⟩; exact ⟨h1, by omega⟩
  · rintro ⟨h1, h2⟩; exact ⟨h1, by omega⟩

theorem mem_thread_rows_lt (t N n i : Nat) (h : i ∈ thread_rows t N n) : i < N :=
  Nat.lt_of_lt_of_le ((mem_thread_rows t N n i).mp h).2 (range_end_le t N n)

/-! ## What `sample_grid` stores -/

theorem foldl_grid_set_keys {α : Type} (ki kj : α → Nat) (w : Nat → Nat → Nat)
    (l : List α) (g : Grid) (a b : Nat) :
    (l.foldl (fun g e => grid_set g (ki e) (kj e) (w (ki e) (kj e))) g) a b =
      if ∃ e ∈ l, ki e = a ∧ kj e = b then w a b else g a b := by
  have hmiss : ∀ (s : Grid) (e : α) (idx : Nat × Nat), True → True →
      ¬ (ki e = idx.1 ∧ kj e = idx.2) →
      (grid_set s (ki e) (kj e) (w (ki e) (kj e))) idx.1 idx.2 = s idx.1 idx.2 := by
    intro s e idx _ _ h
    unfold grid_set
    rw [if_neg]
    rintro ⟨h1, h2⟩
    exact h ⟨h1.symm, h2.symm⟩
  have hhit : ∀ (s : Grid) (e : α) (idx : Nat × Nat), True → True →
      (ki e = idx.1 ∧ kj e = idx.2) →
      (grid_set s (ki e) (kj e) (w (ki e) (kj e))) idx.1 idx.2 = w idx.1 idx.2 := by
    intro s e idx _ _ h
    unfold grid_set
    rw [if_pos ⟨h.1.symm, h.2.symm⟩, h.1, h.2]
  by_cases h : ∃ e ∈ l, ki e = a ∧ kj e = b
  · rw [if_pos h]
    exact foldl_hit (fun (s : Grid) (idx : Nat × Nat) => s idx.1 idx.2) (fun _ => True)
      (fun g e => grid_set g (ki e) (kj e) (w (ki e) (kj e))) (fun _ => True)
      (fun e idx => ki e = idx.1 ∧ kj e = idx.2) (fun idx => w idx.1 idx.2)
      (fun _ _ _ _ => trivial) hhit hmiss l g (a, b) (fun _ _ => trivial) trivial h
  · rw [if_neg h]
    exact foldl_miss (fun (s : Grid) (idx : Nat × Nat) => s idx.1 idx.2) (fun _ => True)
      (fun g e => grid_set g (ki e) (kj e) (w (ki e) (kj e))) (fun _ => True)
      (fun e idx => ki e = idx.1 ∧ kj e = idx.2)
      (fun _ _ _ _ => trivial) hmiss l g (a, b) (fun _ _ => trivial) trivial
      (fun e he hP => h ⟨e, he, hP⟩)

theorem foldl_grid_set_rows_cols (w : Nat → Nat → Nat) (rows cols : List Nat)
    (g : Grid) (a b : Nat) :
    (rows.foldl (fun g i => cols.foldl (fun g j => grid_set g i j (w i j)) g) g) a b =
      if a ∈ rows ∧ b ∈ cols then w a b else g a b := by
  have hstep : ∀ (s : Grid) (i a b : Nat),
      (cols.foldl (fun g j => grid_set g i j (w i j)) s) a b =
        if i = a ∧ b ∈ cols then w a b else s a b := by
    intro s i a b
    rw [foldl_grid_set_keys (fun _ => i) (fun j => j) w cols s a b]
    by_cases h : i = a ∧ b ∈ cols
    · rw [if_pos h, if_pos ⟨b, h.2, h.1, rfl⟩]
    · rw [if_neg h, if_neg]
      rintro ⟨e, he, h1, h2⟩
      exact h ⟨h1, h2 ▸ he⟩
  by_cases h : a ∈ rows ∧ b ∈ cols
  · rw [if_pos h]
    exact foldl_hit (fun (s : Grid) (idx : Nat × Nat) => s idx.1 idx.2) (fun _ => True)
      (fun g i => cols.foldl (fun g j => grid_set g i j (w i j)) g) (fun _ => True)
      (fun i idx => i = idx.1 ∧ idx.2 ∈ cols) (fun idx => w idx.1 idx.2)
      (fun _ _ _ _ => trivial)
      (fun s i idx _ _ hP => (hstep s i idx.1 idx.2).trans (if_pos hP))
      (fun s i idx _ _ hP => (hstep s i idx.1 idx.2).trans (if_neg hP))
      rows g (a, b) (fun _ _ => trivial) trivial ⟨a, h.1, rfl, h.2⟩
  · rw [if_neg h]
    exact foldl_miss (fun (s : Grid) (idx : Nat × Nat) => s idx.1 idx.2) (fun _ => True)
      (fun g i => cols.foldl (fun g j => grid_set g i j (w i j)) g) (fun _ => True)
      (fun i idx => i = idx.1 ∧ idx.2 ∈ cols)
      (fun _ _ _ _ => trivial)
      (fun s i idx _ _ hP => (hstep s i idx.1 idx.2).trans (if_neg hP))
      rows g (a, b) (fun _ _ => trivial) trivial
      (fun i hi hP => h ⟨(show i = a from hP.1) ▸ hi, hP.2⟩)

/-- The cell `grid[a][b]` after one call of `sample_grid`. -/
theorem sample_grid_apply (image : ppm_image) (grid : Grid) (t n sx sy sigma a b : Nat) :
    sample_grid image grid t n sx sy sigma a b =
      if a = image.x / sx ∧ b < image.y / sy then last_row_value image sy sigma b
      else if a ∈ thread_rows t (image.x / sx) n ∧ b = image.y / sy then
        last_column_value image sx sigma a
      else if a ∈ thread_rows t (image.x / sx) n ∧ b < image.y / sy then
        interior_value image sx sy sigma a b
      else grid a b := by
  have h3 := foldl_grid_set_keys (fun _ : Nat => image.x / sx) (fun j => j)
    (fun _ j => last_row_value image sy sigma j) (List.range (image.y / sy))
  have h2 := foldl_grid_set_keys (fun i : Nat => i) (fun _ => image.y / sy)
    (fun i _ => last_column_value image sx sigma i) (thread_rows t (image.x / sx) n)
  have h1 := foldl_grid_set_rows_cols (fun i j => interior_value image sx sy sigma i j)
    (thread_rows t (image.x / sx) n) (List.range (image.y / sy))
  unfold sample_grid
  unfold last_row_value at h3
  unfold last_column_value at h2
  unfold interior_value at h1
  rw [h3, h2, h1]
  have e3 : (∃ e ∈ List.range (image.y / sy), image.x / sx = a ∧ e = b) ↔
      (a = image.x / sx ∧ b < image.y / sy) := by
    constructor
    · rintro ⟨e, he, h4, h5⟩
      exact ⟨h4.symm, h5 ▸ List.mem_range.mp he⟩
    · rintro ⟨h4, h5⟩
      exact ⟨b, List.mem_range.mpr h5, h4.symm, rfl⟩
  have e2 : (∃ e ∈ thread_rows t (image.x / sx) n, e = a ∧ image.y / sy = b) ↔
      (a ∈ thread_rows t (image.x / sx) n ∧ b = image.y / sy) := by
    constructor
    · rintro ⟨e, he, h4, h5⟩
      exact ⟨h4 ▸ he, h5.symm⟩
    · rintro ⟨h4, h5⟩
      exact ⟨a, h4, rfl, h5.symm⟩
  simp only [e3, e2]
  simp only [List.mem_range]
  rfl

theorem mem_order_of_perm {order : List Nat} {n t : Nat}
    (hperm : order.Perm (List.range n)) : t ∈ order ↔ t < n := by
  rw [hperm.mem_iff, List.mem_range]

theorem exists_thread_rows {order : List Nat} {n : Nat} (hn : 0 < n)
    (hperm : order.Perm (List.range n)) (N a : Nat) :
    (∃ t ∈ order, a ∈ thread_rows t N n) ↔ a < N := by
  constructor
  · rintro ⟨t, _, h⟩
    exact mem_thread_rows_lt t N n a h
  · intro h
    obtain ⟨t, ⟨ht, h1, h2⟩, _⟩ := owner_exists_unique N n a hn h
    exact ⟨t, (mem_order_of_perm hperm).mpr ht, (mem_thread_rows t N n a).mpr ⟨h1, h2⟩⟩

/-- The grid after `sample_grid` has run for every worker is `sampled_grid`, whatever
the order of the workers. -/
theorem sample_grid_all_eq (image : ppm_image) (grid : Grid) (order : List Nat)
    (n sx sy sigma : Nat) (hn : 0 < n) (hperm : order.Perm (List.range n)) :
    sample_grid_all image grid order n sx sy sigma = sampled_grid image grid sx sy sigma := by
  funext a b
  have hmiss : ∀ (s : Grid) (t : Nat) (idx : Nat × Nat), True → True →
      ¬ ((idx.1 = image.x / sx ∧ idx.2 < image.y / sy) ∨
        (idx.1 ∈ thread_rows t (image.x / sx) n ∧ idx.2 ≤ image.y / sy)) →
      sample_grid image s t n sx sy sigma idx.1 idx.2 = s idx.1 idx.2 := by
    intro s t idx _ _ h
    rw [sample_grid_apply, if_neg (fun c => h (Or.inl c)),
      if_neg (fun c => h (Or.inr ⟨c.1, Nat.le_of_eq c.2⟩)),
      if_neg (fun c => h (Or.inr ⟨c.1, Nat.le_of_lt c.2⟩))]
  have hhit : ∀ (s : Grid) (t : Nat) (idx : Nat × Nat), True → True →
      ((idx.1 = image.x / sx ∧ idx.2 < image.y / sy) ∨
        (idx.1 ∈ thread_rows t (image.x / sx) n ∧ idx.2 ≤ image.y / sy)) →
      sample_grid image s t n sx sy sigma idx.1 idx.2 =
        sampled_grid image grid sx sy sigma idx.1 idx.2 := by
    intro s t idx _ _ h
    rw [sample_grid_apply]
    unfold sampled_grid
    by_cases c3 : idx.1 = image.x / sx ∧ idx.2 < image.y / sy
    · rw [if_pos c3, if_pos c3]
    · rw [if_neg c3, if_neg c3]
      rcases h with h | ⟨h1, h2⟩
      · exact absurd h c3
      · have hlt : idx.1 < image.x / sx := mem_thread_rows_lt t _ n _ h1
        by_cases c2 : idx.2 = image.y / sy
        · rw [if_pos ⟨h1, c2⟩, if_pos ⟨hlt, c2⟩]
        · have c1 : idx.2 < image.y / sy := Nat.lt_of_le_of_ne h2 c2
          simp only [c2, c1, h1, hlt, and_false, and_self, if_false, if_true]
  have hzero : 0 ∈ order := (mem_order_of_perm hperm).mpr hn
  by_cases hP : (a = image.x / sx ∧ b < image.y / sy) ∨ (a < image.x / sx ∧ b ≤ image.y / sy)
  · have hex : ∃ t ∈ order, ((a = image.x / sx ∧ b < image.y / sy) ∨
        (a ∈ thread_rows t (image.x / sx) n ∧ b ≤ image.y / sy)) := by
      rcases hP with h | ⟨h1, h2⟩
      · exact ⟨0, hzero, Or.inl h⟩
      · obtain ⟨t, ht, hrow⟩ := (exists_thread_rows hn hperm (image.x / sx) a).mpr h1
        exact ⟨t, ht, Or.inr ⟨hrow, h2⟩⟩
    exact foldl_hit (fun (s : Grid) (idx : Nat × Nat) => s idx.1 idx.2) (fun _ => True)
      (fun g t => sample_grid image g t n sx sy sigma) (fun _ => True)
      (fun t idx => (idx.1 = image.x / sx ∧ idx.2 < image.y / sy) ∨
        (idx.1 ∈ thread_rows t (image.x / sx) n ∧ idx.2 ≤ image.y / sy))
      (fun idx => sampled_grid image grid sx sy sigma idx.1 idx.2)
      (fun _ _ _ _ => trivial) hhit hmiss order grid (a, b) (fun _ _ => trivial) trivial hex
  · have hno : ∀ t ∈ order, ¬ ((a = image.x / sx ∧ b < image.y / sy) ∨
        (a ∈ thread_rows t (image.x / sx) n ∧ b ≤ image.y / sy)) := by
      rintro t _ (h | ⟨h1, h2⟩)
      · exact hP (Or.inl h)
      · exact hP (Or.inr ⟨mem_thread_rows_lt t _ n a h1, h2⟩)
    have hkeep : sample_grid_all image grid order n sx sy sigma a b = grid a b :=
      foldl_miss (fun (s : Grid) (idx : Nat × Nat) => s idx.1 idx.2) (fun _ => True)
        (fun g t => sample_grid image g t n sx sy sigma) (fun _ => True)
        (fun t idx => (idx.1 = image.x / sx ∧ idx.2 < image.y / sy) ∨
          (idx.1 ∈ thread_rows t (image.x / sx) n ∧ idx.2 ≤ image.y / sy))
        (fun _ _ _ _ => trivial) hmiss order grid (a, b) (fun _ _ => trivial) trivial hno
    rw [hkeep]
    unfold sampled_grid
    rw [if_neg (fun c => hP (Or.inl c)), if_neg (fun c => hP (Or.inr ⟨c.1, Nat.le_of_eq c.2⟩)),
      if_neg (fun c => hP (Or.inr ⟨c.1, Nat.le_of_lt c.2⟩))]

theorem div_mod_of_lt (r c Y : Nat) (h : c < Y) :
    (r * Y + c) / Y = r ∧ (r * Y + c) % Y = c := by
  have hY : 0 < Y := Nat.lt_of_le_of_lt (Nat.zero_le c) h
  constructor
  · rw [Nat.add_comm, Nat.add_mul_div_right c r hY, Nat.div_eq_of_lt h, Nat.zero_add]
  · rw [Nat.add_comm, Nat.add_mul_mod_self_right, Nat.mod_eq_of_lt h]

theorem set_pixel_data (image : ppm_image) (idx : Nat) (px : ppm_pixel) (k : Nat) :
    (set_pixel image idx px).data k = if k = idx then px else image.data k := by
  unfold set_pixel
  by_cases h : k = idx
  · simp only [h, if_true]
  · simp only [h, if_false]

/-- One row of `update_image`: the inner loop for a fixed `i`. -/
theorem update_image_row (s contour : ppm_image) (Y x y i idx : Nat) :
    ((List.range contour.y).foldl
        (fun img j =>
          set_pixel img ((x + i) * Y + y + j) (contour.data (contour.x * i + j))) s).x = s.x ∧
    ((List.range contour.y).foldl
        (fun img j =>
          set_pixel img ((x + i) * Y + y + j) (contour.data (contour.x * i + j))) s).y = s.y ∧
    ((List.range contour.y).foldl
        (fun img j =>
          set_pixel img ((x + i) * Y + y + j) (contour.data (contour.x * i + j))) s).data idx =
      if ∃ j < contour.y, idx = (x + i) * Y + y + j then
        contour.data (contour.x * i + (idx - ((x + i) * Y + y)))
      else s.data idx := by
  have hdims := foldl_preserves (fun img : ppm_image => img.x = s.x ∧ img.y = s.y)
    (fun img j => set_pixel img ((x + i) * Y + y + j) (contour.data (contour.x * i + j)))
    (fun _ => True) (fun _ _ _ h => h) (List.range contour.y) s (fun _ _ => trivial)
    ⟨rfl, rfl⟩
  refine ⟨hdims.1, hdims.2, ?_⟩
  have hmiss : ∀ (img : ppm_image) (j idx : Nat), True → True →
      ¬ (idx = (x + i) * Y + y + j) →
      (set_pixel img ((x + i) * Y + y + j) (contour.data (contour.x * i + j))).data idx =
        img.data idx := by
    intro img j idx _ _ h
    rw [set_pixel_data, if_neg h]
  have hhit : ∀ (img : ppm_image) (j idx : Nat), True → True →
      idx = (x + i) * Y + y + j →
      (set_pixel img ((x + i) * Y + y + j) (contour.data (contour.x * i + j))).data idx =
        contour.data (contour.x * i + (idx - ((x + i) * Y + y))) := by
    intro img j idx _ _ h
    rw [set_pixel_data, if_pos h]
    have : idx - ((x + i) * Y + y) = j := by omega
    rw [this]
  by_cases h : ∃ j < contour.y, idx = (x + i) * Y + y + j
  · rw [if_pos h]
    obtain ⟨j, hj, hidx⟩ := h
    exact foldl_hit (fun (img : ppm_image) (k : Nat) => img.data k) (fun _ => True)
      (fun img j => set_pixel img ((x + i) * Y + y + j) (contour.data (contour.x * i + j)))
      (fun _ => True) (fun j k => k = (x + i) * Y + y + j)
      (fun k => contour.data (contour.x * i + (k - ((x + i) * Y + y))))
      (fun _ _ _ _ => trivial) hhit hmiss (List.range contour.y) s idx
      (fun _ _ => trivial) trivial ⟨j, List.mem_range.mpr hj, hidx⟩
  · rw [if_neg h]
    exact foldl_miss (fun (img : ppm_image) (k : Nat) => img.data k) (fun _ => True)
      (fun img j => set_pixel img ((x + i) * Y + y + j) (contour.data (contour.x * i + j)))
      (fun _ => True) (fun j k => k = (x + i) * Y + y + j)
      (fun _ _ _ _ => trivial) hmiss (List.range contour.y) s idx
      (fun _ _ => trivial) trivial
      (fun j hj hP => h ⟨j, List.mem_range.mp hj, hP⟩)

theorem update_image_dims (image contour : ppm_image) (x y : Nat) :
    (update_image image contour x y).x = image.x ∧
    (update_image image contour x y).y = image.y := by
  unfold update_image
  exact foldl_preserves (fun img : ppm_image => img.x = image.x ∧ img.y = image.y)
    (fun img i =>
      (List.range contour.y).foldl
        (fun img j =>
          set_pixel img ((x + i) * image.y + y + j) (contour.data (contour.x * i + j))) img)
    (fun _ => True)
    (fun s i _ h =>
      ⟨(update_image_row s contour image.y x y i 0).1.trans h.1,
        (update_image_row s contour image.y x y i 0).2.1.trans h.2⟩)
    (List.range contour.x) image (fun _ _ => trivial) ⟨rfl, rfl⟩

/-- A pixel outside the block that `update_image` addresses is left as it was. -/
theorem update_image_miss (image contour : ppm_image) (x y idx : Nat)
    (h : ∀ i < contour.x, ∀ j < contour.y, idx ≠ (x + i) * image.y + y + j) :
    (update_image image contour x y).data idx = image.data idx := by
  unfold update_image
  exact foldl_miss (fun (img : ppm_image) (k : Nat) => img.data k) (fun _ => True)
    (fun img i =>
      (List.range contour.y).foldl
        (fun img j =>
          set_pixel img ((x + i) * image.y + y + j) (contour.data (contour.x * i + j))) img)
    (fun _ => True) (fun i k => ∃ j < contour.y, k = (x + i) * image.y + y + j)
    (fun _ _ _ _ => trivial)
    (fun s i k _ _ hP => by
      have h3 := (update_image_row s contour image.y x y i k).2.2
      rw [if_neg hP] at h3
      exact h3)
    (List.range contour.x) image idx (fun _ _ => trivial) trivial
    (fun i hi hP => by
      obtain ⟨j, hj, hk⟩ := hP
      exact h i (List.mem_range.mp hi) j hj hk)

/-- Inside the block, when the block fits in a row of the image (`y + contour.y ≤
image.y`), `update_image` stores the contour pixel of index `contour.x * i + j` at
row `x + i`, column `y + j`. -/
theorem update_image_hit (image contour : ppm_image) (x y i j : Nat)
    (hfit : y + contour.y ≤ image.y) (hi : i < contour.x) (hj : j < contour.y) :
    (update_image image contour x y).data ((x + i) * image.y + y + j) =
      contour.data (contour.x * i + j) := by
  have key : ∀ i2 j2, j2 < contour.y →
      ((x + i2) * image.y + y + j2) / image.y = x + i2 ∧
      ((x + i2) * image.y + y + j2) % image.y = y + j2 := by
    intro i2 j2 h2
    rw [Nat.add_assoc]
    exact div_mod_of_lt (x + i2) (y + j2) image.y (by omega)
  have hV : contour.data (contour.x * i + j) =
      (fun k => contour.data (contour.x * (k / image.y - x) + (k % image.y - y)))
        ((x + i) * image.y + y + j) := by
    show _ = contour.data _
    rw [(key i j hj).1, (key i j hj).2]
    have e1 : x + i - x = i := by omega
    have e2 : y + j - y = j := by omega
    rw [e1, e2]
  rw [hV]
  unfold update_image
  exact foldl_hit (fun (img : ppm_image) (k : Nat) => img.data k) (fun _ => True)
    (fun img i =>
      (List.range contour.y).foldl
        (fun img j =>
          set_pixel img ((x + i) * image.y + y + j) (contour.data (contour.x * i + j))) img)
    (fun _ => True) (fun i k => ∃ j < contour.y, k = (x + i) * image.y + y + j)
    (fun k => contour.data (contour.x * (k / image.y - x) + (k % image.y - y)))
    (fun _ _ _ _ => trivial)
    (fun s i2 k _ _ hP => by
      have h3 := (update_image_row s contour image.y x y i2 k).2.2
      rw [if_pos hP] at h3
      refine h3.trans ?_
      obtain ⟨j2, hj2, hk⟩ := hP
      show contour.data _ = contour.data _
      rw [hk, (key i2 j2 hj2).1, (key i2 j2 hj2).2]
      have e1 : x + i2 - x = i2 := by omega
      have e2 : y + j2 - y = j2 := by omega
      have e3 : (x + i2) * image.y + y + j2 - ((x + i2) * image.y + y) = j2 := by omega
      rw [e1, e2, e3])
    (fun s i2 k _ _ hP => by
      have h3 := (update_image_row s contour image.y x y i2 k).2.2
      rw [if_neg hP] at h3
      exact h3)
    (List.range contour.x) image ((x + i) * image.y + y + j) (fun _ _ => trivial) trivial
    ⟨i, List.mem_range.mpr hi, j, hj, rfl⟩

/-! ## What `march` writes -/

theorem writes_as_foldlM {α : Type} (f : ppm_image → α → Option ppm_image) (X Y : Nat)
    (V : Nat → ppm_pixel) (P : α → Nat → Prop) (ok : α → Prop) (l : List α)
    (h : ∀ a ∈ l, writes_as (fun s => f s a) X Y V (P a) (ok a)) :
    writes_as (fun s => l.foldlM f s) X Y V (fun idx => ∃ a ∈ l, P a idx)
      (∀ a ∈ l, ok a) := by
  intro s hx hy
  have hInv : ∀ (s : ppm_image) (a : α) (s2 : ppm_image), a ∈ l → (s.x = X ∧ s.y = Y) →
      f s a = some s2 → (s2.x = X ∧ s2.y = Y) :=
    fun s a s2 ha hs hf => ((h a ha s hs.1 hs.2).2 s2 hf).1
  constructor
  · exact foldlM_isSome (fun s : ppm_image => s.x = X ∧ s.y = Y) f (fun a => a ∈ l) ok
      hInv (fun s a ha hs => (h a ha s hs.1 hs.2).1) l s (fun _ ha => ha) ⟨hx, hy⟩
  · intro s2 hf
    obtain ⟨h1, h2, h3⟩ := foldlM_pointwise (fun (s : ppm_image) (k : Nat) => s.data k)
      (fun s : ppm_image => s.x = X ∧ s.y = Y) f (fun a => a ∈ l) P V hInv
      (fun s a s2 idx ha hs hf hP => ((h a ha s hs.1 hs.2).2 s2 hf).2.1 idx hP)
      (fun s a s2 idx ha hs hf hP => ((h a ha s hs.1 hs.2).2 s2 hf).2.2 idx hP)
      l s s2 (fun _ ha => ha) ⟨hx, hy⟩ hf
    refine ⟨h1, h2, ?_⟩
    intro idx hno
    exact h3 idx (fun a ha hP => hno ⟨a, ha, hP⟩)

/-- A pixel of the block of cell `(i, j)` determines the cell and its offsets. -/
theorem cell_block_decode (sx sy Y i j a b : Nat) (hfit : j * sy + sy ≤ Y)
    (ha : a < sx) (hb : b < sy) :
    ((i * sx + a) * Y + j * sy + b) / Y / sx = i ∧
    ((i * sx + a) * Y + j * sy + b) / Y % sx = a ∧
    ((i * sx + a) * Y + j * sy + b) % Y / sy = j ∧
    ((i * sx + a) * Y + j * sy + b) % Y % sy = b := by
  have h1 := div_mod_of_lt (i * sx + a) (j * sy + b) Y (by omega)
  rw [← Nat.add_assoc] at h1
  rw [h1.1, h1.2]
  exact ⟨(div_mod_of_lt i a sx ha).1, (div_mod_of_lt i a sx ha).2,
    (div_mod_of_lt j b sy hb).1, (div_mod_of_lt j b sy hb).2⟩

theorem march_cell_writes (grid : Grid) (cm : ContourMap) (sx sy X Y i j : Nat)
    (orig : Nat → ppm_pixel)
    (hwf : ∀ k c, cm k = some c → c.x = sx ∧ c.y = sy) (hfit : j * sy + sy ≤ Y) :
    writes_as (fun s => march_cell grid cm sx sy i s j) X Y
      (patch_pixel grid cm sx sy Y orig) (cell_block sx sy Y i j)
      ((cm (config grid i j)).isSome = true) := by
  intro s hx hy
  show ((march_cell grid cm sx sy i s j).isSome = true ↔ _) ∧
    ∀ s2, march_cell grid cm sx sy i s j = some s2 → _
  unfold march_cell
  cases hc : cm (config grid i j) with
  | none =>
    refine ⟨Iff.rfl, ?_⟩
    intro s2 h
    exact absurd h (by simp)
  | some c =>
    obtain ⟨hcx, hcy⟩ := hwf _ c hc
    refine ⟨Iff.rfl, ?_⟩
    intro s2 h
    simp only [Option.some.injEq] at h
    subst h
    have hd := update_image_dims s c (i * sx) (j * sy)
    refine ⟨⟨hd.1.trans hx, hd.2.trans hy⟩, ?_, ?_⟩
    · rintro idx ⟨a, ha, b, hb, rfl⟩
      have hh := update_image_hit s c (i * sx) (j * sy) a b (by rw [hcy, hy]; exact hfit)
        (by rw [hcx]; exact ha) (by rw [hcy]; exact hb)
      rw [hy] at hh
      rw [hh]
      obtain ⟨d1, d2, d3, d4⟩ := cell_block_decode sx sy Y i j a b hfit ha hb
      unfold patch_pixel
      rw [d1, d2, d3, d4, hc]
    · intro idx hno
      apply update_image_miss
      intro a ha b hb heq
      apply hno
      rw [hy] at heq
      exact ⟨a, by rw [← hcx]; exact ha, b, by rw [← hcy]; exact hb, heq⟩

theorem march_writes (grid : Grid) (cm : ContourMap) (t n sx sy X Y : Nat)
    (orig : Nat → ppm_pixel)
    (hwf : ∀ k c, cm k = some c → c.x = sx ∧ c.y = sy) :
    writes_as (fun s => march s grid cm t n sx sy) X Y
      (patch_pixel grid cm sx sy Y orig)
      (fun idx => ∃ i ∈ thread_rows t (X / sx) n, ∃ j ∈ List.range (Y / sy),
        cell_block sx sy Y i j idx)
      (∀ i ∈ thread_rows t (X / sx) n, ∀ j ∈ List.range (Y / sy),
        (cm (config grid i j)).isSome = true) := by
  have hrow : ∀ i ∈ thread_rows t (X / sx) n,
      writes_as (fun s => (List.range (Y / sy)).foldlM (march_cell grid cm sx sy i) s) X Y
        (patch_pixel grid cm sx sy Y orig)
        (fun idx => ∃ j ∈ List.range (Y / sy), cell_block sx sy Y i j idx)
        (∀ j ∈ List.range (Y / sy), (cm (config grid i j)).isSome = true) := by
    intro i _
    apply writes_as_foldlM (march_cell grid cm sx sy i) X Y
    intro j hj
    apply march_cell_writes grid cm sx sy X Y i j orig hwf
    have hj2 : j + 1 ≤ Y / sy := List.mem_range.mp hj
    have h3 : (j + 1) * sy ≤ Y / sy * sy := Nat.mul_le_mul_right sy hj2
    have h4 : Y / sy * sy ≤ Y := Nat.div_mul_le_self Y sy
    have h5 : (j + 1) * sy = j * sy + sy := Nat.succ_mul j sy
    omega
  have hall := writes_as_foldlM
    (fun s i => (List.range (Y / sy)).foldlM (march_cell grid cm sx sy i) s) X Y
    (patch_pixel grid cm sx sy Y orig)
    (fun i idx => ∃ j ∈ List.range (Y / sy), cell_block sx sy Y i j idx)
    (fun i => ∀ j ∈ List.range (Y / sy), (cm (config grid i j)).isSome = true)
    (thread_rows t (X / sx) n) hrow
  intro s hx hy
  have hm : march s grid cm t n sx sy =
      (thread_rows t (X / sx) n).foldlM
        (fun s i => (List.range (Y / sy)).foldlM (march_cell grid cm sx sy i) s) s := by
    unfold march
    rw [hx, hy]
  show ((march s grid cm t n sx sy).isSome = true ↔ _) ∧
    ∀ s2, march s grid cm t n sx sy = some s2 → _
  rw [hm]
  exact hall s hx hy

theorem march_all_writes (grid : Grid) (cm : ContourMap) (order : List Nat)
    (n sx sy X Y : Nat) (orig : Nat → ppm_pixel)
    (hwf : ∀ k c, cm k = some c → c.x = sx ∧ c.y = sy) :
    writes_as (fun s => march_all s grid cm order n sx sy) X Y
      (patch_pixel grid cm sx sy Y orig)
      (fun idx => ∃ t ∈ order, ∃ i ∈ thread_rows t (X / sx) n, ∃ j ∈ List.range (Y / sy),
        cell_block sx sy Y i j idx)
      (∀ t ∈ order, ∀ i ∈ thread_rows t (X / sx) n, ∀ j ∈ List.range (Y / sy),
        (cm (config grid i j)).isSome = true) := by
  exact writes_as_foldlM (fun s t => march s grid cm t n sx sy) X Y
    (patch_pixel grid cm sx sy Y orig)
    (fun t idx => ∃ i ∈ thread_rows t (X / sx) n, ∃ j ∈ List.range (Y / sy),
      cell_block sx sy Y i j idx)
    (fun t => ∀ i ∈ thread_rows t (X / sx) n, ∀ j ∈ List.range (Y / sy),
      (cm (config grid i j)).isSome = true)
    order (fun t _ => march_writes grid cm t n sx sy X Y orig hwf)

/-! ## What `init_contour_map` loads -/

theorem init_contour_map_apply (read_ppm : Nat → ppm_image) (map : ContourMap)
    (t n k : Nat) :
    init_contour_map read_ppm map t n k =
      if k ∈ thread_rows t CONTOUR_CONFIG_COUNT n then some (read_ppm k) else map k := by
  unfold init_contour_map
  have hmiss : ∀ (m : ContourMap) (i k : Nat), True → True → ¬ (k = i) →
      (fun k => if k = i then some (read_ppm i) else m k) k = m k := by
    intro m i k _ _ h
    exact if_neg h
  have hhit : ∀ (m : ContourMap) (i k : Nat), True → True → k = i →
      (fun k => if k = i then some (read_ppm i) else m k) k = some (read_ppm k) := by
    intro m i k _ _ h
    subst h
    exact if_pos rfl
  by_cases h : k ∈ thread_rows t CONTOUR_CONFIG_COUNT n
  · rw [if_pos h]
    exact foldl_hit (fun (m : ContourMap) (k : Nat) => m k) (fun _ => True)
      (fun m i => fun k => if k = i then some (read_ppm i) else m k) (fun _ => True)
      (fun i k => k = i) (fun k => some (read_ppm k))
      (fun _ _ _ _ => trivial) hhit hmiss _ map k (fun _ _ => trivial) trivial ⟨k, h, rfl⟩
  · rw [if_neg h]
    exact foldl_miss (fun (m : ContourMap) (k : Nat) => m k) (fun _ => True)
      (fun m i => fun k => if k = i then some (read_ppm i) else m k) (fun _ => True)
      (fun i k => k = i)
      (fun _ _ _ _ => trivial) hmiss _ map k (fun _ _ => trivial) trivial
      (fun i hi hk => h (hk ▸ hi))

theorem init_contour_map_all_apply (read_ppm : Nat → ppm_image) (map : ContourMap)
    (order : List Nat) (n k : Nat) (hn : 0 < n) (hperm : order.Perm (List.range n)) :
    init_contour_map_all read_ppm map order n k =
      if k < CONTOUR_CONFIG_COUNT then some (read_ppm k) else map k := by
  unfold init_contour_map_all
  by_cases h : k < CONTOUR_CONFIG_COUNT
  · rw [if_pos h]
    exact foldl_hit (fun (m : ContourMap) (k : Nat) => m k) (fun _ => True)
      (fun m t => init_contour_map read_ppm m t n) (fun _ => True)
      (fun t k => k ∈ thread_rows t CONTOUR_CONFIG_COUNT n) (fun k => some (read_ppm k))
      (fun _ _ _ _ => trivial)
      (fun m t k _ _ hP => (init_contour_map_apply read_ppm m t n k).trans (if_pos hP))
      (fun m t k _ _ hP => (init_contour_map_apply read_ppm m t n k).trans (if_neg hP))
      order map k (fun _ _ => trivial) trivial
      ((exists_thread_rows hn hperm CONTOUR_CONFIG_COUNT k).mpr h)
  · rw [if_neg h]
    exact foldl_miss (fun (m : ContourMap) (k : Nat) => m k) (fun _ => True)
      (fun m t => init_contour_map read_ppm m t n) (fun _ => True)
      (fun t k => k ∈ thread_rows t CONTOUR_CONFIG_COUNT n)
      (fun _ _ _ _ => trivial)
      (fun m t k _ _ hP => (init_contour_map_apply read_ppm m t n k).trans (if_neg hP))
      order map k (fun _ _ => trivial) trivial
      (fun t _ hk => h (mem_thread_rows_lt t CONTOUR_CONFIG_COUNT n k hk))

/-! ## `rescale_image` keeps the dimensions of its destination -/

theorem rescale_image_dims {F : Type} (float_div : Nat → Nat → F)
    (sample_bicubic : ppm_image → F → F → ppm_pixel)
    (image new_image : ppm_image) (t n : Nat)
    (h : ¬ (image.x ≤ RESCALE_X ∧ image.y ≤ RESCALE_Y)) :
    (rescale_image float_div sample_bicubic image new_image t n).working.x = new_image.x ∧
    (rescale_image float_div sample_bicubic image new_image t n).working.y = new_image.y := by
  unfold rescale_image
  rw [if_neg h]
  apply foldl_preserves (fun img : ppm_image => img.x = new_image.x ∧ img.y = new_image.y)
    _ (fun _ => True) _ _ new_image (fun _ _ => trivial) ⟨rfl, rfl⟩
  intro s i _ hs
  exact foldl_preserves (fun img : ppm_image => img.x = new_image.x ∧ img.y = new_image.y)
    (fun img j =>
      set_pixel img (i * new_image.y + j)
        (sample_bicubic image (float_div i (new_image.x - 1)) (float_div j (new_image.y - 1))))
    (fun _ => True) (fun _ _ _ h2 => h2) (List.range new_image.y) s (fun _ _ => trivial) hs

/-! ## Order independence of `march` and the cells left by sampling -/

theorem tag_atlas_dims (sx sy : Nat) :
    ∀ k c, tag_atlas sx sy k = some c → c.x = sx ∧ c.y = sy := by
  intro k c h
  unfold tag_atlas at h
  split at h
  · simp only [Option.some.injEq] at h
    subst h
    exact ⟨rfl, rfl⟩
  · exact absurd h (by simp)

/-- The corner cell `grid[p][q]` is written by no worker: after `sample_grid` has run
for every worker it holds what the buffer held before. -/
theorem sample_grid_all_corner (image : ppm_image) (grid : Grid) (order : List Nat)
    (n sx sy sigma : Nat) (hn : 0 < n) (hperm : order.Perm (List.range n)) :
    sample_grid_all image grid order n sx sy sigma (image.x / sx) (image.y / sy) =
      grid (image.x / sx) (image.y / sy) := by
  rw [sample_grid_all_eq image grid order n sx sy sigma hn hperm]
  unfold sampled_grid
  rw [if_neg (fun c => Nat.lt_irrefl _ c.2), if_neg (fun c => Nat.lt_irrefl _ c.1),
    if_neg (fun c => Nat.lt_irrefl _ c.1)]

theorem grid_value_binary (px : ppm_pixel) (sigma : Nat) :
    grid_value px sigma = 0 ∨ grid_value px sigma = 1 := by
  unfold grid_value
  split
  · exact Or.inl rfl
  · exact Or.inr rfl

/-- Every cell of the `(p+1) x (q+1)` grid other than the corner is 0 or 1 after
`sample_grid` has run for every worker. -/
theorem sample_grid_all_binary (image : ppm_image) (grid : Grid) (order : List Nat)
    (n sx sy sigma a b : Nat) (hn : 0 < n) (hperm : order.Perm (List.range n))
    (ha : a ≤ image.x / sx) (hb : b ≤ image.y / sy)
    (hcorner : ¬ (a = image.x / sx ∧ b = image.y / sy)) :
    sample_grid_all image grid order n sx sy sigma a b = 0 ∨
      sample_grid_all image grid order n sx sy sigma a b = 1 := by
  rw [sample_grid_all_eq image grid order n sx sy sigma hn hperm]
  unfold sampled_grid
  by_cases c3 : a = image.x / sx ∧ b < image.y / sy
  · rw [if_pos c3]
    exact grid_value_binary _ _
  · rw [if_neg c3]
    by_cases c2 : a < image.x / sx ∧ b = image.y / sy
    · rw [if_pos c2]
      exact grid_value_binary _ _
    · rw [if_neg c2]
      have c1 : a < image.x / sx ∧ b < image.y / sy := by
        constructor
        · by_contra hne
          have hae : a = image.x / sx := by omega
          by_cases hbe : b = image.y / sy
          · exact hcorner ⟨hae, hbe⟩
          · exact c3 ⟨hae, by omega⟩
        · by_contra hne
          have hbe : b = image.y / sy := by omega
          by_cases hae : a = image.x / sx
          · exact hcorner ⟨hae, hbe⟩
          · exact c2 ⟨by omega, hbe⟩
      rw [if_pos c1]
      exact grid_value_binary _ _

/-! ## The accesses of `sample_grid` and `march` -/

theorem mem_sample_grid_cells (image : ppm_image) (t n sx sy a b : Nat) :
    (a, b) ∈ sample_grid_cells image t n sx sy ↔
      (a ∈ thread_rows t (image.x / sx) n ∧ b < image.y / sy) ∨
      (a ∈ thread_rows t (image.x / sx) n ∧ b = image.y / sy) ∨
      (a = image.x / sx ∧ b < image.y / sy) := by
  unfold sample_grid_cells
  simp only [List.mem_append, List.mem_flatMap, List.mem_map, List.mem_range,
    Prod.mk.injEq]
  constructor
  · rintro ((⟨i, hi, j, hj, h1, h2⟩ | ⟨i, hi, h1, h2⟩) | ⟨j, hj, h1, h2⟩)
    · exact Or.inl ⟨h1 ▸ hi, h2 ▸ hj⟩
    · exact Or.inr (Or.inl ⟨h1 ▸ hi, h2.symm⟩)
    · exact Or.inr (Or.inr ⟨h1.symm, h2 ▸ hj⟩)
  · rintro (⟨h1, h2⟩ | ⟨h1, h2⟩ | ⟨h1, h2⟩)
    · exact Or.inl (Or.inl ⟨a, h1, b, h2, rfl, rfl⟩)
    · exact Or.inl (Or.inr ⟨a, h1, rfl, h2.symm⟩)
    · exact Or.inr ⟨b, h2, h1.symm, rfl⟩

/-- A cell that is not among `sample_grid_cells` keeps its content. -/
theorem sample_grid_off_cells (image : ppm_image) (grid : Grid) (t n sx sy sigma a b : Nat)
    (h : (a, b) ∉ sample_grid_cells image t n sx sy) :
    sample_grid image grid t n sx sy sigma a b = grid a b := by
  rw [mem_sample_grid_cells] at h
  rw [sample_grid_apply, if_neg (fun c => h (Or.inr (Or.inr c))),
    if_neg (fun c => h (Or.inr (Or.inl c))), if_neg (fun c => h (Or.inl c))]

theorem mem_sample_grid_reads (image : ppm_image) (t n sx sy k : Nat) :
    k ∈ sample_grid_reads image t n sx sy ↔
      (∃ i ∈ thread_rows t (image.x / sx) n, ∃ j < image.y / sy,
        k = i * sx * image.y + j * sy) ∨
      (∃ i ∈ thread_rows t (image.x / sx) n, k = i * sx * image.y + image.x - 1) ∨
      (∃ j < image.y / sy, k = (image.x - 1) * image.y + j * sy) := by
  unfold sample_grid_reads
  simp only [List.mem_append, List.mem_flatMap, List.mem_map, List.mem_range]
  constructor
  · rintro ((⟨i, hi, j, hj, h1⟩ | ⟨i, hi, h1⟩) | ⟨j, hj, h1⟩)
    · exact Or.inl ⟨i, hi, j, hj, h1.symm⟩
    · exact Or.inr (Or.inl ⟨i, hi, h1.symm⟩)
    · exact Or.inr (Or.inr ⟨j, hj, h1.symm⟩)
  · rintro (⟨i, hi, j, hj, h1⟩ | ⟨i, hi, h1⟩ | ⟨j, hj, h1⟩)
    · exact Or.inl (Or.inl ⟨i, hi, j, hj, h1.symm⟩)
    · exact Or.inl (Or.inr ⟨i, hi, h1.symm⟩)
    · exact Or.inr ⟨j, hj, h1.symm⟩

/-- The grid that `sample_grid` leaves depends on the image only through its dimensions
and the pixels listed in `sample_grid_reads`. -/
theorem sample_grid_reads_only (image image2 : ppm_image) (grid : Grid)
    (t n sx sy sigma : Nat) (hx : image2.x = image.x) (hy : image2.y = image.y)
    (h : ∀ k ∈ sample_grid_reads image t n sx sy, image2.data k = image.data k) :
    sample_grid image2 grid t n sx sy sigma = sample_grid image grid t n sx sy sigma := by
  funext a b
  rw [sample_grid_apply, sample_grid_apply, hx, hy]
  by_cases c3 : a = image.x / sx ∧ b < image.y / sy
  · rw [if_pos c3, if_pos c3]
    unfold last_row_value
    rw [hx, hy, h _ ((mem_sample_grid_reads _ _ _ _ _ _).mpr (Or.inr (Or.inr ⟨b, c3.2, rfl⟩)))]
  · rw [if_neg c3, if_neg c3]
    by_cases c2 : a ∈ thread_rows t (image.x / sx) n ∧ b = image.y / sy
    · rw [if_pos c2, if_pos c2]
      unfold last_column_value
      rw [hx, hy, h _ ((mem_sample_grid_reads _ _ _ _ _ _).mpr (Or.inr (Or.inl ⟨a, c2.1, rfl⟩)))]
    · rw [if_neg c2, if_neg c2]
      by_cases c1 : a ∈ thread_rows t (image.x / sx) n ∧ b < image.y / sy
      · rw [if_pos c1, if_pos c1]
        unfold interior_value
        rw [hy, h _ ((mem_sample_grid_reads _ _ _ _ _ _).mpr
          (Or.inl ⟨a, c1.1, b, c1.2, rfl⟩))]
      · rw [if_neg c1, if_neg c1]

theorem mem_march_cells (image : ppm_image) (t n sx sy a b : Nat) :
    (a, b) ∈ march_cells image t n sx sy ↔
      ∃ i ∈ thread_rows t (image.x / sx) n, ∃ j < image.y / sy,
        (a = i ∧ b = j) ∨ (a = i ∧ b = j + 1) ∨ (a = i + 1 ∧ b = j + 1) ∨
          (a = i + 1 ∧ b = j) := by
  unfold march_cells
  simp only [List.mem_flatMap, List.mem_range, List.mem_cons, Prod.mk.injEq,
    List.mem_singleton, List.not_mem_nil, or_false]

theorem foldlM_option_congr {σ α : Type} (f g : σ → α → Option σ) (l : List α)
    (h : ∀ a ∈ l, ∀ s, f s a = g s a) : ∀ s, l.foldlM f s = l.foldlM g s := by
  induction l with
  | nil => intro s; rfl
  | cons b l ih =>
    intro s
    rw [List.foldlM_cons, List.foldlM_cons, h b (List.mem_cons_self b l) s]
    cases g s b with
    | none => rfl
    | some s2 =>
      exact ih (fun a ha => h a (List.mem_cons_of_mem b ha)) s2

/-- The result of `march` depends on the grid only through the cells listed in
`march_cells`. -/
theorem march_cells_only (image : ppm_image) (grid grid2 : Grid) (cm : ContourMap)
    (t n sx sy : Nat)
    (h : ∀ c ∈ march_cells image t n sx sy, grid2 c.1 c.2 = grid c.1 c.2) :
    march image grid2 cm t n sx sy = march image grid cm t n sx sy := by
  unfold march
  apply foldlM_option_congr
  intro i hi s
  apply foldlM_option_congr
  intro j hj s2
  have hj2 : j < image.y / sy := List.mem_range.mp hj
  have hc : config grid2 i j = config grid i j := by
    unfold config
    rw [h (i, j) ((mem_march_cells _ _ _ _ _ _ _).mpr ⟨i, hi, j, hj2, Or.inl ⟨rfl, rfl⟩⟩),
      h (i, j + 1) ((mem_march_cells _ _ _ _ _ _ _).mpr
        ⟨i, hi, j, hj2, Or.inr (Or.inl ⟨rfl, rfl⟩)⟩),
      h (i + 1, j + 1) ((mem_march_cells _ _ _ _ _ _ _).mpr
        ⟨i, hi, j, hj2, Or.inr (Or.inr (Or.inl ⟨rfl, rfl⟩))⟩),
      h (i + 1, j) ((mem_march_cells _ _ _ _ _ _ _).mpr
        ⟨i, hi, j, hj2, Or.inr (Or.inr (Or.inr ⟨rfl, rfl⟩))⟩)]
  unfold march_cell
  rw [hc]

/-! ## The pixels `march` assigns -/

theorem mem_update_image_indices (image contour : ppm_image) (x y idx : Nat) :
    idx ∈ update_image_indices image contour x y ↔
      ∃ i < contour.x, ∃ j < contour.y, idx = (x + i) * image.y + y + j := by
  unfold update_image_indices
  simp only [List.mem_flatMap, List.mem_map, List.mem_range]
  constructor
  · rintro ⟨i, hi, j, hj, h⟩
    exact ⟨i, hi, j, hj, h.symm⟩
  · rintro ⟨i, hi, j, hj, h⟩
    exact ⟨i, hi, j, hj, h.symm⟩

theorem mem_march_indices (image : ppm_image) (grid : Grid) (cm : ContourMap)
    (t n sx sy idx : Nat) :
    idx ∈ march_indices image grid cm t n sx sy ↔
      ∃ i ∈ thread_rows t (image.x / sx) n, ∃ j < image.y / sy, ∃ c,
        cm (config grid i j) = some c ∧
        ∃ a < c.x, ∃ b < c.y, idx = (i * sx + a) * image.y + j * sy + b := by
  unfold march_indices
  simp only [List.mem_flatMap, List.mem_range]
  constructor
  · rintro ⟨i, hi, j, hj, h⟩
    cases hc : cm (config grid i j) with
    | none =>
      rw [hc] at h
      exact absurd h (List.not_mem_nil idx)
    | some c =>
      rw [hc] at h
      exact ⟨i, hi, j, hj, c, hc, (mem_update_image_indices _ _ _ _ _).mp h⟩
  · rintro ⟨i, hi, j, hj, c, hc, h⟩
    refine ⟨i, hi, j, hj, ?_⟩
    rw [hc]
    exact (mem_update_image_indices _ _ _ _ _).mpr h

/-- With patches of the step dimensions, a pixel that `march` assigns for the worker
`t` lies in the rows `[start(t) * sx, end(t) * sx)`, in the columns `[0, q * sy)` and
inside the buffer of `x * y` pixels. -/
theorem march_indices_region (image : ppm_image) (grid : Grid) (cm : ContourMap)
    (t n sx sy idx : Nat)
    (hwf : ∀ k c, cm k = some c → c.x = sx ∧ c.y = sy)
    (h : idx ∈ march_indices image grid cm t n sx sy) :
    range_start t (image.x / sx) n * sx ≤ idx / image.y ∧
    idx / image.y < range_end t (image.x / sx) n * sx ∧
    idx % image.y < image.y / sy * sy ∧
    idx < image.x * image.y := by
  obtain ⟨i, hi, j, hj, c, hc, a, ha, b, hb, rfl⟩ := (mem_march_indices _ _ _ _ _ _ _ _).mp h
  obtain ⟨hcx, hcy⟩ := hwf _ c hc
  rw [hcx] at ha
  rw [hcy] at hb
  obtain ⟨hi1, hi2⟩ := (mem_thread_rows _ _ _ _).mp hi
  have hip : i < image.x / sx := mem_thread_rows_lt _ _ _ _ hi
  have e1 : (j + 1) * sy = j * sy + sy := Nat.succ_mul j sy
  have e2 : (i + 1) * sx = i * sx + sx := Nat.succ_mul i sx
  have hq1 : (j + 1) * sy ≤ image.y / sy * sy := Nat.mul_le_mul_right sy hj
  have hq2 : image.y / sy * sy ≤ image.y := Nat.div_mul_le_self image.y sy
  have hp1 : (i + 1) * sx ≤ range_end t (image.x / sx) n * sx := Nat.mul_le_mul_right sx hi2
  have hp0 : range_start t (image.x / sx) n * sx ≤ i * sx := Nat.mul_le_mul_right sx hi1
  have hp2 : (i + 1) * sx ≤ image.x / sx * sx := Nat.mul_le_mul_right sx hip
  have hp3 : image.x / sx * sx ≤ image.x := Nat.div_mul_le_self image.x sx
  have hdm := div_mod_of_lt (i * sx + a) (j * sy + b) image.y (by omega)
  rw [← Nat.add_assoc] at hdm
  rw [hdm.1, hdm.2]
  refine ⟨by omega, by omega, by omega, ?_⟩
  have hrow : i * sx + a + 1 ≤ image.x := by omega
  have h5 : (i * sx + a + 1) * image.y ≤ image.x * image.y :=
    Nat.mul_le_mul_right image.y hrow
  have e3 : (i * sx + a + 1) * image.y = (i * sx + a) * image.y + image.y :=
    Nat.succ_mul (i * sx + a) image.y
  omega

/-! ## The pixels `rescale_image` assigns -/

theorem mem_rescale_image_indices (image new_image : ppm_image) (t n idx : Nat)
    (hbig : ¬ (image.x ≤ RESCALE_X ∧ image.y ≤ RESCALE_Y)) :
    idx ∈ rescale_image_indices image new_image t n ↔
      ∃ i ∈ thread_rows t new_image.x n, ∃ j < new_image.y, idx = i * new_image.y + j := by
  unfold rescale_image_indices
  rw [if_neg hbig]
  simp only [List.mem_flatMap, List.mem_map, List.mem_range]
  constructor
  · rintro ⟨i, hi, j, hj, h⟩
    exact ⟨i, hi, j, hj, h.symm⟩
  · rintro ⟨i, hi, j, hj, h⟩
    exact ⟨i, hi, j, hj, h.symm⟩

theorem rescale_image_indices_nodup (image new_image : ppm_image) (t n : Nat) :
    (rescale_image_indices image new_image t n).Nodup := by
  unfold rescale_image_indices
  split
  · exact List.nodup_nil
  · rw [List.nodup_flatMap]
    constructor
    · intro i _
      apply List.Nodup.map_on _ (List.nodup_range _)
      intro a _ b _ hab
      omega
    · apply List.Nodup.pairwise_of_forall_ne
      · unfold thread_rows
        exact List.nodup_range' _ _
      · intro a _ b _ hne
        show List.Disjoint _ _
        intro k hka hkb
        simp only [List.mem_map, List.mem_range] at hka hkb
        obtain ⟨ja, hja, ea⟩ := hka
        obtain ⟨jb, hjb, eb⟩ := hkb
        have da := div_mod_of_lt a ja new_image.y hja
        have db := div_mod_of_lt b jb new_image.y hjb
        rw [ea] at da
        rw [eb] at db
        exact hne (da.1.symm.trans db.1)

/-- One row of `rescale_image`: the inner loop for a fixed `i`. -/
theorem rescale_image_row {F : Type} (float_div : Nat → Nat → F)
    (sample_bicubic : ppm_image → F → F → ppm_pixel)
    (image s : ppm_image) (X Y i k : Nat) :
    ((List.range Y).foldl
      (fun img j =>
        set_pixel img (i * Y + j)
          (sample_bicubic image (float_div i (X - 1)) (float_div j (Y - 1)))) s).data k =
      if ∃ j ∈ List.range Y, k = i * Y + j then
        sample_bicubic image (float_div (k / Y) (X - 1)) (float_div (k % Y) (Y - 1))
      else s.data k := by
  have hmiss : ∀ (img : ppm_image) (j k : Nat), j < Y → True → ¬ (k = i * Y + j) →
      (set_pixel img (i * Y + j)
        (sample_bicubic image (float_div i (X - 1)) (float_div j (Y - 1)))).data k =
        img.data k := by
    intro img j k _ _ h
    rw [set_pixel_data, if_neg h]
  have hhit : ∀ (img : ppm_image) (j k : Nat), j < Y → True → k = i * Y + j →
      (set_pixel img (i * Y + j)
        (sample_bicubic image (float_div i (X - 1)) (float_div j (Y - 1)))).data k =
        sample_bicubic image (float_div (k / Y) (X - 1)) (float_div (k % Y) (Y - 1)) := by
    intro img j k hj _ h
    rw [set_pixel_data, if_pos h, h, (div_mod_of_lt i j Y hj).1, (div_mod_of_lt i j Y hj).2]
  by_cases h : ∃ j ∈ List.range Y, k = i * Y + j
  · rw [if_pos h]
    exact foldl_hit (fun (img : ppm_image) (k : Nat) => img.data k) (fun _ => True)
      (fun img j =>
        set_pixel img (i * Y + j)
          (sample_bicubic image (float_div i (X - 1)) (float_div j (Y - 1))))
      (fun j => j < Y) (fun j k => k = i * Y + j)
      (fun k => sample_bicubic image (float_div (k / Y) (X - 1)) (float_div (k % Y) (Y - 1)))
      (fun _ _ _ _ => trivial) hhit hmiss (List.range Y) s k
      (fun _ hj => List.mem_range.mp hj) trivial h
  · rw [if_neg h]
    exact foldl_miss (fun (img : ppm_image) (k : Nat) => img.data k) (fun _ => True)
      (fun img j =>
        set_pixel img (i * Y + j)
          (sample_bicubic image (float_div i (X - 1)) (float_div j (Y - 1))))
      (fun j => j < Y) (fun j k => k = i * Y + j)
      (fun _ _ _ _ => trivial) hmiss (List.range Y) s k
      (fun _ hj => List.mem_range.mp hj) trivial
      (fun j hj hP => h ⟨j, hj, hP⟩)

/-- The destination after `rescale_image` for one worker, pixel by pixel, when the
source exceeds a threshold: an assigned pixel of row `i = idx / Y`, column
`j = idx % Y` holds the sample of the source at `u = i / (X - 1)`, `v = j / (Y - 1)`,
every other pixel holds what it held before. -/
theorem rescale_image_apply {F : Type} (float_div : Nat → Nat → F)
    (sample_bicubic : ppm_image → F → F → ppm_pixel)
    (image new_image : ppm_image) (t n idx : Nat)
    (hbig : ¬ (image.x ≤ RESCALE_X ∧ image.y ≤ RESCALE_Y)) :
    (rescale_image float_div sample_bicubic image new_image t n).scaled.data idx =
      if idx ∈ rescale_image_indices image new_image t n then
        sample_bicubic image (float_div (idx / new_image.y) (new_image.x - 1))
          (float_div (idx % new_image.y) (new_image.y - 1))
      else new_image.data idx := by
  have hmem := mem_rescale_image_indices image new_image t n idx hbig
  unfold rescale_image
  rw [if_neg hbig]
  show (List.foldl
    (fun img i =>
      (List.range new_image.y).foldl
        (fun img j =>
          set_pixel img (i * new_image.y + j)
            (sample_bicubic image (float_div i (new_image.x - 1))
              (float_div j (new_image.y - 1)))) img)
    new_image (thread_rows t new_image.x n)).data idx = _
  by_cases h : idx ∈ rescale_image_indices image new_image t n
  · rw [if_pos h]
    obtain ⟨i, hi, j, hj, hk⟩ := hmem.mp h
    exact foldl_hit (fun (img : ppm_image) (k : Nat) => img.data k) (fun _ => True)
      (fun img i =>
        (List.range new_image.y).foldl
          (fun img j =>
            set_pixel img (i * new_image.y + j)
              (sample_bicubic image (float_div i (new_image.x - 1))
                (float_div j (new_image.y - 1)))) img)
      (fun _ => True) (fun i k => ∃ j ∈ List.range new_image.y, k = i * new_image.y + j)
      (fun k => sample_bicubic image (float_div (k / new_image.y) (new_image.x - 1))
        (float_div (k % new_image.y) (new_image.y - 1)))
      (fun _ _ _ _ => trivial)
      (fun s i k _ _ hP =>
        (rescale_image_row float_div sample_bicubic image s new_image.x new_image.y i k).trans
          (if_pos hP))
      (fun s i k _ _ hP =>
        (rescale_image_row float_div sample_bicubic image s new_image.x new_image.y i k).trans
          (if_neg hP))
      (thread_rows t new_image.x n) new_image idx (fun _ _ => trivial) trivial
      ⟨i, hi, j, List.mem_range.mpr hj, hk⟩
  · rw [if_neg h]
    exact foldl_miss (fun (img : ppm_image) (k : Nat) => img.data k) (fun _ => True)
      (fun img i =>
        (List.range new_image.y).foldl
          (fun img j =>
            set_pixel img (i * new_image.y + j)
              (sample_bicubic image (float_div i (new_image.x - 1))
                (float_div j (new_image.y - 1)))) img)
      (fun _ => True) (fun i k => ∃ j ∈ List.range new_image.y, k = i * new_image.y + j)
      (fun _ _ _ _ => trivial)
      (fun s i k _ _ hP =>
        (rescale_image_row float_div sample_bicubic image s new_image.x new_image.y i k).trans
          (if_neg hP))
      (thread_rows t new_image.x n) new_image idx (fun _ _ => trivial) trivial
      (fun i hi hP => by
        obtain ⟨j, hj, hk⟩ := hP
        exact h (hmem.mpr ⟨i, hi, j, List.mem_range.mp hj, hk⟩))

/-! ## Binary grids and configuration codes -/

theorem grid_value_le_one (px : ppm_pixel) (sigma : Nat) : grid_value px sigma ≤ 1 := by
  rcases grid_value_binary px sigma with h | h <;> omega

/-- When the grid buffer held only 0 and 1 before, every cell of the sampled grid is
0 or 1, the corner included. -/
theorem sampled_grid_le_one (image : ppm_image) (grid : Grid) (sx sy sigma a b : Nat)
    (h : ∀ a b, grid a b ≤ 1) : sampled_grid image grid sx sy sigma a b ≤ 1 := by
  unfold sampled_grid
  split
  · exact grid_value_le_one _ _
  · split
    · exact grid_value_le_one _ _
    · split
      · exact grid_value_le_one _ _
      · exact h a b

theorem config_lt_16 (grid : Grid) (i j : Nat) (h : ∀ a b, grid a b ≤ 1) :
    config grid i j < CONTOUR_CONFIG_COUNT := by
  unfold config CONTOUR_CONFIG_COUNT
  have h1 := h i j
  have h2 := h i (j + 1)
  have h3 := h (i + 1) (j + 1)
  have h4 := h (i + 1) j
  omega

theorem tag_atlas_isSome (sx sy k : Nat) (h : k < CONTOUR_CONFIG_COUNT) :
    (tag_atlas sx sy k).isSome = true := by
  unfold tag_atlas
  rw [if_pos h]
  rfl

theorem perm_0123 : [0, 1, 2, 3].Perm (List.range 4) := List.Perm.refl [0, 1, 2, 3]

/-! ## Binary64 rounding of the partition bounds -/

theorem log2_fuel_spec : ∀ (fuel m : Nat), 1 ≤ m → m < 2 ^ fuel →
    2 ^ log2_fuel fuel m ≤ m ∧ m < 2 ^ (log2_fuel fuel m + 1) := by
  intro fuel
  induction fuel with
  | zero =>
    intro m h1 h2
    simp at h2
    omega
  | succ fuel ih =>
    intro m h1 h2
    unfold log2_fuel
    by_cases hm : m < 2
    · rw [if_pos hm]
      simp only [pow_zero, zero_add, pow_one]
      omega
    · rw [if_neg hm]
      have h3 : m / 2 < 2 ^ fuel := by
        rw [pow_succ] at h2
        omega
      obtain ⟨a, b⟩ := ih (m / 2) (by omega) h3
      rw [pow_succ, pow_succ]
      rw [pow_succ] at b
      constructor <;> omega

theorem floor_log2_spec (m : Nat) (h : 1 ≤ m) :
    2 ^ floor_log2 m ≤ m ∧ m < 2 ^ (floor_log2 m + 1) :=
  log2_fuel_spec m m h (Nat.lt_two_pow m)

theorem round_half_even_cases (num den : Nat) :
    round_half_even num den = num / den ∨
      (round_half_even num den = num / den + 1 ∧ den ≤ 2 * (num % den)) := by
  unfold round_half_even
  simp only
  split
  · exact Or.inl rfl
  · split
    · exact Or.inr ⟨rfl, by omega⟩
    · split
      · exact Or.inl rfl
      · exact Or.inr ⟨rfl, by omega⟩

theorem binade_shifts_zero (num den : Nat) :
    (binade_shifts num den).1 = 0 ∨ (binade_shifts num den).2 = 0 := by
  unfold binade_shifts
  simp only
  split
  · by_cases h : floor_log2 num ≤ 52 + floor_log2 den
    · exact Or.inr (by omega)
    · exact Or.inl (by omega)
  · split
    · exact Or.inl rfl
    · exact Or.inr rfl

/-- The scaled quotient reaches `2 ^ 52`. -/
theorem binade_shifts_spec (num den : Nat) (hnum : 1 ≤ num) (hden : 1 ≤ den) :
    den * 2 ^ (binade_shifts num den).2 * 2 ^ 52 ≤ num * 2 ^ (binade_shifts num den).1 := by
  obtain ⟨hL1, hL2⟩ := floor_log2_spec num hnum
  obtain ⟨hM1, hM2⟩ := floor_log2_spec den hden
  unfold binade_shifts
  simp only
  generalize floor_log2 num = L at *
  generalize floor_log2 den = M at *
  by_cases htest : den * 2 ^ (L - M) ≤ num * 2 ^ (M - L)
  · rw [if_pos htest]
    simp only
    by_cases h1 : L ≤ M
    · have e1 : L - M = 0 := by omega
      have e2 : L - (52 + M) = 0 := by omega
      have e3 : 52 + M - L = (M - L) + 52 := by omega
      rw [e1] at htest
      rw [e2, e3, pow_add]
      simp only [pow_zero, Nat.mul_one] at htest ⊢
      calc den * 2 ^ 52 ≤ num * 2 ^ (M - L) * 2 ^ 52 := Nat.mul_le_mul_right _ htest
        _ = num * (2 ^ (M - L) * 2 ^ 52) := Nat.mul_assoc _ _ _
    · have e1 : M - L = 0 := by omega
      rw [e1] at htest
      simp only [pow_zero, Nat.mul_one] at htest
      by_cases h2 : L ≤ 52 + M
      · have e2 : L - (52 + M) = 0 := by omega
        have e3 : 52 = (L - M) + (52 + M - L) := by omega
        rw [e2]
        simp only [pow_zero, Nat.mul_one]
        calc den * 2 ^ 52 = den * 2 ^ ((L - M) + (52 + M - L)) := by rw [← e3]
          _ = den * 2 ^ (L - M) * 2 ^ (52 + M - L) := by rw [pow_add, Nat.mul_assoc]
          _ ≤ num * 2 ^ (52 + M - L) := Nat.mul_le_mul_right _ htest
      · have e2 : 52 + M - L = 0 := by omega
        have e3 : L - M = (L - (52 + M)) + 52 := by omega
        rw [e2]
        simp only [pow_zero, Nat.mul_one]
        calc den * 2 ^ (L - (52 + M)) * 2 ^ 52 = den * 2 ^ (L - M) := by
              rw [e3, pow_add, Nat.mul_assoc]
          _ ≤ num := htest
  · rw [if_neg htest]
    by_cases h2 : 0 < L - (52 + M)
    · rw [if_pos h2]
      simp only [pow_zero, Nat.mul_one]
      have e3 : L = (M + 1) + ((L - (52 + M) - 1) + 52) := by omega
      have hp : 2 ^ L = 2 ^ (M + 1) * (2 ^ (L - (52 + M) - 1) * 2 ^ 52) := by
        rw [← pow_add, ← pow_add, ← e3]
      have hpos : 0 < 2 ^ (L - (52 + M) - 1) * 2 ^ 52 := by positivity
      calc den * 2 ^ (L - (52 + M) - 1) * 2 ^ 52
          = den * (2 ^ (L - (52 + M) - 1) * 2 ^ 52) := Nat.mul_assoc _ _ _
        _ ≤ 2 ^ (M + 1) * (2 ^ (L - (52 + M) - 1) * 2 ^ 52) :=
            Nat.mul_le_mul_right _ (Nat.le_of_lt hM2)
        _ = 2 ^ L := hp.symm
        _ ≤ num := hL1
    · rw [if_neg h2]
      simp only [pow_zero, Nat.mul_one]
      have e3 : (M + 1) + 52 = L + (52 + M - L + 1) := by omega
      have hp : 2 ^ (M + 1) * 2 ^ 52 = 2 ^ L * 2 ^ (52 + M - L + 1) := by
        rw [← pow_add, ← pow_add, e3]
      calc den * 2 ^ 52 ≤ 2 ^ (M + 1) * 2 ^ 52 := Nat.mul_le_mul_right _ (Nat.le_of_lt hM2)
        _ = 2 ^ L * 2 ^ (52 + M - L + 1) := hp
        _ ≤ num * 2 ^ (52 + M - L + 1) := Nat.mul_le_mul_right _ hL1

/-- The scaled quotient stays below `2 ^ 53`: together with `binade_shifts_spec`, the
quotient that `round_double` rounds to an integer lies in `[2 ^ 52, 2 ^ 53)`. -/
theorem binade_shifts_upper (num den : Nat) (hnum : 1 ≤ num) (hden : 1 ≤ den) :
    num * 2 ^ (binade_shifts num den).1 < den * 2 ^ (binade_shifts num den).2 * 2 ^ 53 := by
  obtain ⟨hL1, hL2⟩ := floor_log2_spec num hnum
  obtain ⟨hM1, hM2⟩ := floor_log2_spec den hden
  unfold binade_shifts
  simp only
  generalize floor_log2 num = L at *
  generalize floor_log2 den = M at *
  by_cases htest : den * 2 ^ (L - M) ≤ num * 2 ^ (M - L)
  · rw [if_pos htest]
    simp only
    by_cases h2 : L ≤ 52 + M
    · have e2 : L - (52 + M) = 0 := by omega
      have e3 : (L + 1) + (52 + M - L) = M + 53 := by omega
      have hp : 2 ^ (L + 1) * 2 ^ (52 + M - L) = 2 ^ M * 2 ^ 53 := by
        rw [← pow_add, ← pow_add, e3]
      have hpos : 0 < 2 ^ (52 + M - L) := by positivity
      rw [e2]
      simp only [pow_zero, Nat.mul_one]
      calc num * 2 ^ (52 + M - L) < 2 ^ (L + 1) * 2 ^ (52 + M - L) :=
            Nat.mul_lt_mul_of_pos_right hL2 hpos
        _ = 2 ^ M * 2 ^ 53 := hp
        _ ≤ den * 2 ^ 53 := Nat.mul_le_mul_right _ hM1
    · have e2 : 52 + M - L = 0 := by omega
      have e3 : M + ((L - (52 + M)) + 53) = L + 1 := by omega
      have hp : 2 ^ M * (2 ^ (L - (52 + M)) * 2 ^ 53) = 2 ^ (L + 1) := by
        rw [← pow_add, ← pow_add, e3]
      rw [e2]
      simp only [pow_zero, Nat.mul_one]
      calc num < 2 ^ (L + 1) := hL2
        _ = 2 ^ M * (2 ^ (L - (52 + M)) * 2 ^ 53) := hp.symm
        _ ≤ den * (2 ^ (L - (52 + M)) * 2 ^ 53) := Nat.mul_le_mul_right _ hM1
        _ = den * 2 ^ (L - (52 + M)) * 2 ^ 53 := (Nat.mul_assoc _ _ _).symm
  · rw [if_neg htest]
    have hlt : num * 2 ^ (M - L) < den * 2 ^ (L - M) := Nat.lt_of_not_le htest
    by_cases h2 : 0 < L - (52 + M)
    · rw [if_pos h2]
      simp only [pow_zero, Nat.mul_one]
      have e1 : M - L = 0 := by omega
      have e3 : L - M = (L - (52 + M) - 1) + 53 := by omega
      rw [e1] at hlt
      simp only [pow_zero, Nat.mul_one] at hlt
      calc num < den * 2 ^ (L - M) := hlt
        _ = den * 2 ^ (L - (52 + M) - 1) * 2 ^ 53 := by rw [e3, pow_add, Nat.mul_assoc]
    · rw [if_neg h2]
      simp only [pow_zero, Nat.mul_one]
      by_cases h1 : L ≤ M
      · have e1 : L - M = 0 := by omega
        have e3 : 52 + M - L + 1 = (M - L) + 53 := by omega
        rw [e1] at hlt
        simp only [pow_zero, Nat.mul_one] at hlt
        have hpos : 0 < 2 ^ 53 := by positivity
        calc num * 2 ^ (52 + M - L + 1) = num * 2 ^ (M - L) * 2 ^ 53 := by
              rw [e3, pow_add, Nat.mul_assoc]
          _ < den * 2 ^ 53 := Nat.mul_lt_mul_of_pos_right hlt hpos
      · have e1 : M - L = 0 := by omega
        have e3 : 53 = (L - M) + (52 + M - L + 1) := by omega
        rw [e1] at hlt
        simp only [pow_zero, Nat.mul_one] at hlt
        have hpos : 0 < 2 ^ (52 + M - L + 1) := by positivity
        calc num * 2 ^ (52 + M - L + 1) < den * 2 ^ (L - M) * 2 ^ (52 + M - L + 1) :=
              Nat.mul_lt_mul_of_pos_right hlt hpos
          _ = den * 2 ^ ((L - M) + (52 + M - L + 1)) := by rw [Nat.mul_assoc, ← pow_add]
          _ = den * 2 ^ 53 := by rw [← e3]

theorem round_half_even_zero (den : Nat) (h : 0 < den) : round_half_even 0 den = 0 := by
  unfold round_half_even
  simp only [Nat.zero_div, Nat.zero_mod, Nat.mul_zero]
  rw [if_pos h]

theorem round_half_even_one (x : Nat) : round_half_even x 1 = x := by
  unfold round_half_even
  simp only [Nat.div_one, Nat.mod_one, Nat.mul_zero]
  rw [if_pos Nat.one_pos]

/-- Rounding up never reaches the next integer: for `a < 2 ^ 53`, a scaling `P` with
`n * 2 ^ 52 ≤ a * P` and a quotient `a * P / n` that is rounded up, the rounded value
divided by `P` is still `a / n`. -/
theorem rounded_quot_div (a n P : Nat) (hn : 0 < n) (hP : 0 < P) (ha : a < 2 ^ 53)
    (hlow : n * 2 ^ 52 ≤ a * P) (hup : n ≤ 2 * (a * P % n)) :
    (a * P / n + 1) / P = a / n := by
  have hdm : n * (a * P / n) + a * P % n = a * P := Nat.div_add_mod (a * P) n
  have hq : n * (a / n) + a % n = a := Nat.div_add_mod a n
  have hr : a % n < n := Nat.mod_lt a hn
  have haP : a * P = n * (a / n) * P + a % n * P := by
    conv_lhs => rw [← hq]
    rw [Nat.add_mul]
  have hrP : a % n * P + P ≤ n * P := by
    have : (a % n + 1) * P ≤ n * P := Nat.mul_le_mul_right P hr
    rw [Nat.add_mul, Nat.one_mul] at this
    exact this
  have hbig : a * P < 2 ^ 53 * P := Nat.mul_lt_mul_of_pos_right ha hP
  have h52 : (2 : Nat) ^ 52 = 4503599627370496 := by norm_num
  have h53 : (2 : Nat) ^ 53 = 9007199254740992 := by norm_num
  rw [h52] at hlow
  rw [h53] at hbig
  apply Nat.div_eq_of_lt_le
  · -- a / n * P ≤ a * P / n + 1
    have : a / n * P ≤ a * P / n := by
      rw [Nat.le_div_iff_mul_le hn]
      have e : a / n * P * n = n * (a / n) * P := by ring
      rw [e, haP]
      exact Nat.le_add_right _ _
    omega
  · -- a * P / n + 1 < (a / n + 1) * P
    by_contra hcon
    have hge : (a / n + 1) * P ≤ a * P / n + 1 := Nat.not_lt.mp hcon
    have h3 : n * ((a / n + 1) * P) ≤ n * (a * P / n + 1) := Nat.mul_le_mul_left n hge
    have e1 : n * ((a / n + 1) * P) = n * (a / n) * P + n * P := by ring
    have e2 : n * (a * P / n + 1) = n * (a * P / n) + n := by ring
    rw [e1, e2] at h3
    omega

theorem round_quot_trunc (a n c : Nat) (hn : 0 < n) (hc : 0 < c) (ha : a < 2 ^ 53) :
    double_to_int (round_double (a * c) (n * c)) = a / n := by
  unfold double_to_int round_double
  simp only
  rcases Nat.eq_zero_or_pos a with h0 | hpos
  · subst h0
    rw [Nat.zero_mul, Nat.zero_mul]
    have hden : 0 < n * c * 2 ^ (binade_shifts 0 (n * c)).2 := by positivity
    rw [round_half_even_zero _ hden]
    simp
  · have hnum1 : 1 ≤ a * c := Nat.mul_pos hpos hc
    have hden1 : 1 ≤ n * c := Nat.mul_pos hn hc
    have hs := binade_shifts_spec (a * c) (n * c) hnum1 hden1
    have hz := binade_shifts_zero (a * c) (n * c)
    generalize (binade_shifts (a * c) (n * c)).1 = u at *
    generalize (binade_shifts (a * c) (n * c)).2 = d at *
    have h52 : (2 : Nat) ^ 52 = 4503599627370496 := by norm_num
    have h53 : (2 : Nat) ^ 53 = 9007199254740992 := by norm_num
    -- cancel the common factor
    have hs2 : n * 2 ^ d * 2 ^ 52 ≤ a * 2 ^ u := by
      have e1 : n * c * 2 ^ d * 2 ^ 52 = n * 2 ^ d * 2 ^ 52 * c := by ring
      have e2 : a * c * 2 ^ u = a * 2 ^ u * c := by ring
      rw [e1, e2] at hs
      exact Nat.le_of_mul_le_mul_right hs hc
    have hd : d = 0 := by
      by_contra hd0
      have hu : u = 0 := by
        rcases hz with h | h
        · exact h
        · exact absurd h hd0
      rw [hu] at hs2
      simp only [pow_zero, Nat.mul_one] at hs2
      have h2d : 2 ≤ 2 ^ d := by
        calc 2 = 2 ^ 1 := by norm_num
          _ ≤ 2 ^ d := Nat.pow_le_pow_right (by norm_num) (by omega)
      have h4 : n * 2 ≤ n * 2 ^ d := Nat.mul_le_mul_left n h2d
      have h5 : n * 2 * 2 ^ 52 ≤ n * 2 ^ d * 2 ^ 52 := Nat.mul_le_mul_right _ h4
      rw [h52] at h5 hs2
      rw [h53] at ha
      omega
    rw [hd] at hs2 ⊢
    simp only [pow_zero, Nat.mul_one] at hs2 ⊢
    have hP : 0 < 2 ^ u := by positivity
    have eF : a * c * 2 ^ u / (n * c) = a * 2 ^ u / n := by
      have e : a * c * 2 ^ u = a * 2 ^ u * c := by ring
      rw [e]
      exact Nat.mul_div_mul_right _ _ hc
    have eR : a * c * 2 ^ u % (n * c) = a * 2 ^ u % n * c := by
      have e : a * c * 2 ^ u = a * 2 ^ u * c := by ring
      rw [e]
      exact Nat.mul_mod_mul_right _ _ _
    rcases round_half_even_cases (a * c * 2 ^ u) (n * c) with h | ⟨h, hR⟩
    · rw [h, eF, Nat.div_div_eq_div_mul, Nat.mul_div_mul_right _ _ hP]
    · rw [h, eF]
      rw [eR] at hR
      have hR2 : n ≤ 2 * (a * 2 ^ u % n) := by
        have e : 2 * (a * 2 ^ u % n * c) = 2 * (a * 2 ^ u % n) * c := by ring
        rw [e] at hR
        exact Nat.le_of_mul_le_mul_right hR hc
      exact rounded_quot_div a n (2 ^ u) hn hP ha hs2 hR2

theorem double_mul_exact (a b : Nat) (h : a * b < 2 ^ 53) :
    (double_mul a b).down = 0 ∧
    (double_mul a b).sig = a * b * 2 ^ (double_mul a b).up := by
  unfold double_mul round_double
  simp only
  have hz := binade_shifts_zero (a * b) 1
  have hd : (binade_shifts (a * b) 1).2 = 0 := by
    rcases Nat.eq_zero_or_pos (a * b) with h0 | hpos
    · rw [h0]
      decide
    · have hs := binade_shifts_spec (a * b) 1 hpos (Nat.le_refl 1)
      by_contra hd0
      have hu : (binade_shifts (a * b) 1).1 = 0 := by
        rcases hz with h1 | h1
        · exact h1
        · exact absurd h1 hd0
      rw [hu] at hs
      simp only [pow_zero, Nat.mul_one, Nat.one_mul] at hs
      have h2d : 2 ≤ 2 ^ (binade_shifts (a * b) 1).2 := by
        calc 2 = 2 ^ 1 := by norm_num
          _ ≤ 2 ^ (binade_shifts (a * b) 1).2 := Nat.pow_le_pow_right (by norm_num) (by omega)
      have h5 : 2 * 2 ^ 52 ≤ 2 ^ (binade_shifts (a * b) 1).2 * 2 ^ 52 :=
        Nat.mul_le_mul_right _ h2d
      have h52 : (2 : Nat) ^ 52 = 4503599627370496 := by norm_num
      have h53 : (2 : Nat) ^ 53 = 9007199254740992 := by norm_num
      rw [h52] at h5 hs
      rw [h53] at h
      omega
  refine ⟨hd, ?_⟩
  rw [hd]
  simp only [pow_zero, Nat.mul_one]
  exact round_half_even_one _

/-- In binary64 arithmetic `t * (double)N / n`, truncated, is the integer quotient
`t * N / n` whenever the product is below `2 ^ 53`. -/
theorem double_start_exact (t N n : Nat) (hn : 0 < n) (h : t * N < 2 ^ 53) :
    double_start t N n = t * N / n := by
  obtain ⟨hd, hsig⟩ := double_mul_exact t N h
  unfold double_start double_div
  rw [hd, hsig]
  simp only [pow_zero, Nat.mul_one]
  exact round_quot_trunc (t * N) n (2 ^ (double_mul t N).up) hn (by positivity) h

/-! ## The barrier protocol keeps the workers in the same phase -/

theorem thread_function_ge (k : Nat) (h : 8 ≤ k) :
    thread_function k = statement.pthread_exit := by
  obtain ⟨m, rfl⟩ : ∃ m, k = m + 8 := ⟨k - 8, by omega⟩
  rfl

theorem thread_function_barrier (k : Nat) :
    thread_function k = statement.pthread_barrier_wait ↔ k = 2 ∨ k = 4 ∨ k = 6 := by
  rcases Nat.lt_or_ge k 8 with h | h
  · interval_cases k <;> simp [thread_function]
  · rw [thread_function_ge k h]
    constructor
    · intro c
      exact absurd c (by decide)
    · intro c
      omega

theorem thread_function_exit (k : Nat) :
    thread_function k = statement.pthread_exit ↔ 8 ≤ k := by
  rcases Nat.lt_or_ge k 8 with h | h
  · interval_cases k <;> simp [thread_function]
  · rw [thread_function_ge k h]
    simp [h]

theorem thread_function_write (k : Nat) :
    thread_function k = statement.write_ppm ↔ k = 7 := by
  rcases Nat.lt_or_ge k 8 with h | h
  · interval_cases k <;> simp [thread_function]
  · rw [thread_function_ge k h]
    constructor
    · intro c
      exact absurd c (by decide)
    · intro c
      omega

theorem thread_function_sample (k : Nat) :
    thread_function k = statement.sample_grid ↔ k = 3 := by
  rcases Nat.lt_or_ge k 8 with h | h
  · interval_cases k <;> simp [thread_function]
  · rw [thread_function_ge k h]
    constructor
    · intro c
      exact absurd c (by decide)
    · intro c
      omega

theorem thread_function_march (k : Nat) :
    thread_function k = statement.march ↔ k = 5 := by
  rcases Nat.lt_or_ge k 8 with h | h
  · interval_cases k <;> simp [thread_function]
  · rw [thread_function_ge k h]
    constructor
    · intro c
      exact absurd c (by decide)
    · intro c
      omega

theorem thread_function_first (k : Nat) :
    (thread_function k = statement.init_contour_map ∨
      thread_function k = statement.rescale_image) ↔ k = 0 ∨ k = 1 := by
  rcases Nat.lt_or_ge k 8 with h | h
  · interval_cases k <;> simp [thread_function]
  · rw [thread_function_ge k h]
    constructor
    · intro c
      rcases c with c | c <;> exact absurd c (by decide)
    · intro c
      omega

theorem blocked_iff (s : threads) (t : Nat) :
    blocked s t ↔ s.pc t = 5 ∨ s.pc t = 9 ∨ s.pc t = 13 := by
  unfold blocked
  rw [thread_function_barrier]
  omega


section Counting

variable (P Q : Nat → Prop) [DecidablePred P] [DecidablePred Q]

theorem card_filter_congr (n : Nat) (h : ∀ u, u < n → (Q u ↔ P u)) :
    ((Finset.range n).filter Q).card = ((Finset.range n).filter P).card := by
  congr 1
  apply Finset.filter_congr
  intro u hu
  exact h u (Finset.mem_range.mp hu)

theorem card_filter_add_one (n t : Nat) (ht : t < n) (hP : ¬ P t)
    (h : ∀ u, u < n → (Q u ↔ (u = t ∨ P u))) :
    ((Finset.range n).filter Q).card = ((Finset.range n).filter P).card + 1 := by
  have e : (Finset.range n).filter Q = insert t ((Finset.range n).filter P) := by
    ext u
    simp only [Finset.mem_filter, Finset.mem_insert, Finset.mem_range]
    constructor
    · rintro ⟨hu, hq⟩
      rcases (h u hu).mp hq with c | c
      · exact Or.inl c
      · exact Or.inr ⟨hu, c⟩
    · rintro (c | ⟨hu, c⟩)
      · subst c
        exact ⟨ht, (h u ht).mpr (Or.inl rfl)⟩
      · exact ⟨hu, (h u hu).mpr (Or.inr c)⟩
  rw [e, Finset.card_insert_of_not_mem]
  intro c
  exact hP (Finset.mem_filter.mp c).2

theorem card_filter_zero (n : Nat) (h : ∀ u, u < n → ¬ Q u) :
    ((Finset.range n).filter Q).card = 0 := by
  rw [Finset.card_eq_zero, Finset.filter_eq_empty_iff]
  intro u hu
  exact h u (Finset.mem_range.mp hu)

/-- When all but one of the `n` workers are counted and worker `t` is not among them,
every other worker is. -/
theorem all_of_card (n t : Nat) (ht : t < n) (hP : ¬ P t)
    (hc : n ≤ ((Finset.range n).filter P).card + 1) :
    ∀ u, u < n → u ≠ t → P u := by
  intro u hu hne
  by_contra hu2
  have hsub : (Finset.range n).filter P ⊆ ((Finset.range n).erase t).erase u := by
    intro w hw
    have hw2 := Finset.mem_filter.mp hw
    refine Finset.mem_erase.mpr ⟨?_, Finset.mem_erase.mpr ⟨?_, hw2.1⟩⟩
    · intro c
      rw [c] at hw2
      exact hu2 hw2.2
    · intro c
      rw [c] at hw2
      exact hP hw2.2
  have hle := Finset.card_le_card hsub
  have h1 : (((Finset.range n).erase t).erase u).card = n - 1 - 1 := by
    rw [Finset.card_erase_of_mem, Finset.card_erase_of_mem, Finset.card_range]
    · exact Finset.mem_range.mpr ht
    · exact Finset.mem_erase.mpr ⟨hne, Finset.mem_range.mpr hu⟩
  rw [h1] at hle
  omega

end Counting

theorem threads_created_inv (n : Nat) : phase_inv n threads_created := by
  refine ⟨?_, ?_, ?_⟩
  · intro t _
    exact Nat.zero_le 16
  · intro t u _ _
    refine ⟨?_, ?_, ?_⟩
    · intro c
      have c2 : 6 ≤ (0 : Nat) := c
      omega
    · intro c
      have c2 : 10 ≤ (0 : Nat) := c
      omega
    · intro c
      have c2 : 14 ≤ (0 : Nat) := c
      omega
  · symm
    apply card_filter_zero
    intro u _ c
    have c2 : (0 : Nat) = 5 ∨ (0 : Nat) = 9 ∨ (0 : Nat) = 13 := c
    omega

/-- A worker that moves to the position `v` between the same two barriers, neither
from nor to a blocked position, keeps the invariant. -/
theorem move_inv (n : Nat) (s : threads) (t v : Nat) (h : phase_inv n s)
    (hv : v ≤ 16) (hlo : s.pc t ≤ v)
    (h6 : 6 ≤ v → 6 ≤ s.pc t) (h10 : 10 ≤ v → 10 ≤ s.pc t) (h14 : 14 ≤ v → 14 ≤ s.pc t)
    (hb : ¬ (s.pc t = 5 ∨ s.pc t = 9 ∨ s.pc t = 13)) (hb2 : ¬ (v = 5 ∨ v = 9 ∨ v = 13)) :
    phase_inv n { pc := fun u => if u = t then v else s.pc u, waiting := s.waiting } := by
  obtain ⟨i1, i2, i3⟩ := h
  refine ⟨?_, ?_, ?_⟩
  · intro a ha
    show (if a = t then v else s.pc a) ≤ 16
    split
    · exact hv
    · exact i1 a ha
  · intro a b ha hb3
    show (6 ≤ (if a = t then v else s.pc a) → 6 ≤ (if b = t then v else s.pc b)) ∧
      (10 ≤ (if a = t then v else s.pc a) → 10 ≤ (if b = t then v else s.pc b)) ∧
      (14 ≤ (if a = t then v else s.pc a) → 14 ≤ (if b = t then v else s.pc b))
    by_cases ea : a = t
    · by_cases eb : b = t
      · rw [if_pos ea, if_pos eb]
        exact ⟨id, id, id⟩
      · rw [if_pos ea, if_neg eb]
        have k := i2 a b ha hb3
        rw [ea] at k
        exact ⟨fun c => k.1 (h6 c), fun c => k.2.1 (h10 c), fun c => k.2.2 (h14 c)⟩
    · by_cases eb : b = t
      · rw [if_neg ea, if_pos eb]
        have k := i2 a b ha hb3
        rw [eb] at k
        exact ⟨fun c => Nat.le_trans (k.1 c) hlo, fun c => Nat.le_trans (k.2.1 c) hlo,
          fun c => Nat.le_trans (k.2.2 c) hlo⟩
      · rw [if_neg ea, if_neg eb]
        exact i2 a b ha hb3
  · show s.waiting = _
    rw [i3]
    symm
    apply card_filter_congr
    intro u _
    show ((if u = t then v else s.pc u) = 5 ∨ (if u = t then v else s.pc u) = 9 ∨
      (if u = t then v else s.pc u) = 13) ↔ _
    by_cases eu : u = t
    · rw [if_pos eu, eu]
      exact ⟨fun c => absurd c hb2, fun c => absurd c hb⟩
    · rw [if_neg eu]

theorem pthread_barrier_wait_inv (n : Nat) (s : threads) (t : Nat) (h : phase_inv n s)
    (ht : t < n) (hk : s.pc t = 4 ∨ s.pc t = 8 ∨ s.pc t = 12) :
    phase_inv n (pthread_barrier_wait n s t) := by
  obtain ⟨i1, i2, i3⟩ := h
  have hnb : ¬ (s.pc t = 5 ∨ s.pc t = 9 ∨ s.pc t = 13) := by omega
  unfold pthread_barrier_wait
  split
  · refine ⟨?_, ?_, ?_⟩
    · intro a ha
      show (if a = t then s.pc t + 1 else s.pc a) ≤ 16
      split
      · omega
      · exact i1 a ha
    · intro a b ha hb
      show (6 ≤ (if a = t then s.pc t + 1 else s.pc a) →
          6 ≤ (if b = t then s.pc t + 1 else s.pc b)) ∧
        (10 ≤ (if a = t then s.pc t + 1 else s.pc a) →
          10 ≤ (if b = t then s.pc t + 1 else s.pc b)) ∧
        (14 ≤ (if a = t then s.pc t + 1 else s.pc a) →
          14 ≤ (if b = t then s.pc t + 1 else s.pc b))
      have kab := i2 a b ha hb
      have kat := i2 a t ha ht
      have ktb := i2 t b ht hb
      by_cases ea : a = t
      · by_cases eb : b = t
        · rw [if_pos ea, if_pos eb]
          exact ⟨id, id, id⟩
        · rw [if_pos ea, if_neg eb]
          refine ⟨fun c => ktb.1 (by omega), fun c => ktb.2.1 (by omega),
            fun c => ktb.2.2 (by omega)⟩
      · by_cases eb : b = t
        · rw [if_neg ea, if_pos eb]
          refine ⟨fun c => ?_, fun c => ?_, fun c => ?_⟩
          · have := kat.1 c
            omega
          · have := kat.2.1 c
            omega
          · have := kat.2.2 c
            omega
        · rw [if_neg ea, if_neg eb]
          exact kab
    · show s.waiting + 1 = _
      rw [i3]
      symm
      apply card_filter_add_one (fun u => s.pc u = 5 ∨ s.pc u = 9 ∨ s.pc u = 13) _ n t ht hnb
      intro u _
      show ((if u = t then s.pc t + 1 else s.pc u) = 5 ∨
        (if u = t then s.pc t + 1 else s.pc u) = 9 ∨
        (if u = t then s.pc t + 1 else s.pc u) = 13) ↔ _
      by_cases eu : u = t
      · rw [if_pos eu]
        constructor
        · intro _
          exact Or.inl eu
        · intro _
          omega
      · rw [if_neg eu]
        constructor
        · intro c
          exact Or.inr c
        · intro c
          rcases c with c | c
          · exact absurd c eu
          · exact c
  · rename_i hfull
    have hall : ∀ u, u < n → u ≠ t → (s.pc u = 5 ∨ s.pc u = 9 ∨ s.pc u = 13) := by
      apply all_of_card (fun u => s.pc u = 5 ∨ s.pc u = 9 ∨ s.pc u = 13) n t ht hnb
      rw [← i3]
      omega
    have hsame : ∀ u, u < n → u ≠ t → s.pc u = s.pc t + 1 := by
      intro u hu hne
      have b := hall u hu hne
      have k1 := i2 u t hu ht
      have k2 := i2 t u ht hu
      rcases hk with e | e | e
      · rcases b with b | b | b
        · omega
        · have := k1.1 (by omega)
          omega
        · have := k1.1 (by omega)
          omega
      · rcases b with b | b | b
        · have := k2.1 (by omega)
          omega
        · omega
        · have := k1.2.1 (by omega)
          omega
      · rcases b with b | b | b
        · have := k2.1 (by omega)
          omega
        · have := k2.2.1 (by omega)
          omega
        · omega
    have hnew : ∀ u, u < n →
        (if u = t then s.pc t + 2 else if blocked s u then s.pc u + 1 else s.pc u) =
          s.pc t + 2 := by
      intro u hu
      by_cases eu : u = t
      · rw [if_pos eu]
      · rw [if_neg eu, if_pos ((blocked_iff s u).mpr (hall u hu eu)), hsame u hu eu]
    refine ⟨?_, ?_, ?_⟩
    · intro a ha
      show (if a = t then s.pc t + 2 else if blocked s a then s.pc a + 1 else s.pc a) ≤ 16
      rw [hnew a ha]
      omega
    · intro a b ha hb
      show (6 ≤ (if a = t then s.pc t + 2 else if blocked s a then s.pc a + 1 else s.pc a) →
          6 ≤ (if b = t then s.pc t + 2 else if blocked s b then s.pc b + 1 else s.pc b)) ∧
        (10 ≤ (if a = t then s.pc t + 2 else if blocked s a then s.pc a + 1 else s.pc a) →
          10 ≤ (if b = t then s.pc t + 2 else if blocked s b then s.pc b + 1 else s.pc b)) ∧
        (14 ≤ (if a = t then s.pc t + 2 else if blocked s a then s.pc a + 1 else s.pc a) →
          14 ≤ (if b = t then s.pc t + 2 else if blocked s b then s.pc b + 1 else s.pc b))
      rw [hnew a ha, hnew b hb]
      exact ⟨id, id, id⟩
    · show 0 = _
      symm
      apply card_filter_zero
      intro u hu
      show ¬ ((if u = t then s.pc t + 2 else if blocked s u then s.pc u + 1 else s.pc u) = 5 ∨
        (if u = t then s.pc t + 2 else if blocked s u then s.pc u + 1 else s.pc u) = 9 ∨
        (if u = t then s.pc t + 2 else if blocked s u then s.pc u + 1 else s.pc u) = 13)
      rw [hnew u hu]
      omega

theorem thread_step_inv (n : Nat) (s : threads) (t : Nat) (h : phase_inv n s) :
    phase_inv n (thread_step n s t) := by
  unfold thread_step
  split
  · exact h
  · rename_i ht
    have ht2 : t < n := Nat.lt_of_not_le ht
    have hle := h.1 t ht2
    split
    · exact h
    · rename_i hx
      rw [thread_function_exit] at hx
      split
      · rename_i hb
        rw [thread_function_barrier] at hb
        split
        · exact pthread_barrier_wait_inv n s t h ht2 (by omega)
        · exact h
      · rename_i hb
        rw [thread_function_barrier] at hb
        split
        · rename_i hw
          rw [thread_function_write] at hw
          exact move_inv n s t (s.pc t + 2) h (by omega) (by omega) (by omega) (by omega)
            (by omega) (by omega) (by omega)
        · exact move_inv n s t (s.pc t + 1) h (by omega) (by omega) (by omega) (by omega)
            (by omega) (by omega) (by omega)

theorem run_threads_inv (n : Nat) (schedule : List Nat) :
    phase_inv n (run_threads n schedule) := by
  unfold run_threads
  have key : ∀ (l : List Nat) (s : threads), phase_inv n s →
      phase_inv n (l.foldl (thread_step n) s) := by
    intro l
    induction l with
    | nil =>
      intro s hs
      exact hs
    | cons a l ih =>
      intro s hs
      exact ih _ (thread_step_inv n s a hs)
  exact key schedule threads_created (threads_created_inv n)

/-- In binary64 arithmetic the `end` of worker `t < n`, after the clamp, is `range_end`
whenever the product `(t + 1) * N` is below `2 ^ 53`. -/
theorem double_end_exact (t N n : Nat) (ht : t < n) (h : (t + 1) * N < 2 ^ 53) :
    double_end t N n = range_end t N n := by
  have hn : 0 < n := Nat.lt_of_le_of_lt (Nat.zero_le t) ht
  have he : double_end_unclamped t N n = (t + 1) * N / n :=
    double_start_exact (t + 1) N n hn h
  have hle : (t + 1) * N / n ≤ N :=
    Nat.div_le_of_le_mul (Nat.mul_le_mul_right N ht)
  unfold double_end
  rw [if_neg (by rw [he]; exact Nat.not_lt.mpr hle), he, range_end_eq t N n ht]

/-- When `n * N` is below `2 ^ 53`, the binary64 bounds of every worker `t < n` over
`[0, N)` are the exact quotients. -/
theorem double_bounds_eq_range (N n t : Nat) (h : n * N < 2 ^ 53) (ht : t < n) :
    double_start t N n = range_start t N n ∧ double_end t N n = range_end t N n := by
  have hn : 0 < n := Nat.lt_of_le_of_lt (Nat.zero_le t) ht
  have h1 : (t + 1) * N < 2 ^ 53 :=
    Nat.lt_of_le_of_lt (Nat.mul_le_mul_right N ht) h
  have h0 : t * N < 2 ^ 53 :=
    Nat.lt_of_le_of_lt (Nat.mul_le_mul_right N (Nat.le_succ t)) h1
  exact ⟨double_start_exact t N n hn h0, double_end_exact t N n ht h1⟩

/-! ## Reads that stay inside the buffers -/

/-- C1, amended. For `nrThreads ≥ 1` and `N` with `nrThreads * N < 2 ^ 53`, the ranges
`[start(t), end(t))` that the partition idiom computes in binary64 arithmetic start at
0, are non-decreasing (`start(t) ≤ end(t)`), contiguous (`end(t) = start(t+1)`), end at
`N`, stay inside `[0, N)`, and every index of `[0, N)` lies in the range of exactly one
worker (disjoint, union exactly `[0, N)`). -/
theorem double_partition_ranges (N nrThreads : Nat) (h1 : 1 ≤ nrThreads)
    (hexact : nrThreads * N < 2 ^ 53) :
    double_start 0 N nrThreads = 0 ∧
    (∀ t, t < nrThreads → double_start t N nrThreads ≤ double_end t N nrThreads) ∧
    (∀ t, t + 1 < nrThreads →
      double_end t N nrThreads = double_start (t + 1) N nrThreads) ∧
    double_end (nrThreads - 1) N nrThreads = N ∧
    (∀ t k, t < nrThreads → k < double_end t N nrThreads → k < N) ∧
    (∀ k, k < N →
      ∃! t, t < nrThreads ∧ double_start t N nrThreads ≤ k ∧
        k < double_end t N nrThreads) := by
  have hn : 0 < nrThreads := h1
  have hb := fun t (ht : t < nrThreads) => double_bounds_eq_range N nrThreads t hexact ht
  refine ⟨?_, ?_, ?_, ?_, ?_, ?_⟩
  · rw [(hb 0 hn).1]
    exact range_start_zero N nrThreads
  · intro t ht
    rw [(hb t ht).1, (hb t ht).2]
    exact range_start_le_end t N nrThreads ht
  · intro t ht
    rw [(hb t (by omega)).2, (hb (t + 1) ht).1]
    exact range_end_eq_start t N nrThreads (by omega)
  · rw [(hb (nrThreads - 1) (by omega)).2,
      range_end_eq_start (nrThreads - 1) N nrThreads (by omega)]
    have e : nrThreads - 1 + 1 = nrThreads := by omega
    rw [e]
    exact range_start_full N nrThreads hn
  · intro t k ht hk
    rw [(hb t ht).2] at hk
    exact Nat.lt_of_lt_of_le hk (range_end_le t N nrThreads)
  · intro k hk
    obtain ⟨t, ⟨ht, hlo, hhi⟩, huniq⟩ := owner_exists_unique N nrThreads k hn hk
    refine ⟨t, ⟨ht, ?_, ?_⟩, ?_⟩
    · rw [(hb t ht).1]
      exact hlo
    · rw [(hb t ht).2]
      exact hhi
    · rintro u ⟨hu, hu1, hu2⟩
      rw [(hb u hu).1] at hu1
      rw [(hb u hu).2] at hu2
      exact huniq u ⟨hu, hu1, hu2⟩

/-- The binary64 partition of the 2048 rows of the rescaled image among 8 workers. -/
theorem double_partition_ranges_witness :
    double_start 0 2048 8 = 0 ∧
    (∀ t, t < 8 → double_start t 2048 8 ≤ double_end t 2048 8) ∧
    (∀ t, t + 1 < 8 → double_end t 2048 8 = double_start (t + 1) 2048 8) ∧
    double_end (8 - 1) 2048 8 = 2048 ∧
    (∀ t k, t < 8 → k < double_end t 2048 8 → k < 2048) ∧
    (∀ k, k < 2048 →
      ∃! t, t < 8 ∧ double_start t 2048 8 ≤ k ∧ k < double_end t 2048 8) :=
  double_partition_ranges 2048 8 (by decide) (by decide)

/-- C1 as stated fails for large `int` values. For `N = 2 ^ 31 - 1` and
`nrThreads = 2 ^ 22 + 3` (so `1 ≤ nrThreads ≤ N`) the product `nrThreads * N` exceeds
`2 ^ 53` and is rounded down by 1; the quotient then rounds below `N`, so the `end` of
the last worker is `N - 1 = 2147483646` and the row `N - 1` is in its range no more,
while the exact quotient is `N`. -/
theorem double_last_end_below_N :
    1 ≤ 2 ^ 22 + 3 ∧ 2 ^ 22 + 3 ≤ 2 ^ 31 - 1 ∧
    double_to_int (double_mul (2 ^ 22 + 3) (2 ^ 31 - 1)) =
      (2 ^ 22 + 3) * (2 ^ 31 - 1) - 1 ∧
    double_end (2 ^ 22 + 3 - 1) (2 ^ 31 - 1) (2 ^ 22 + 3) = 2147483646 ∧
    double_end (2 ^ 22 + 3 - 1) (2 ^ 31 - 1) (2 ^ 22 + 3) ≠ 2 ^ 31 - 1 ∧
    range_end (2 ^ 22 + 3 - 1) (2 ^ 31 - 1) (2 ^ 22 + 3) = 2 ^ 31 - 1 := by
  decide

/-- C3, at a concrete input. On the all-white 8 x 8 image with step 8 and sigma 200
(`p = q = 1`), after `sample_grid` has run for the only worker on a grid buffer whose
bytes were all `0xFF`, the corner cell `grid[p][q] = grid[1][1]` still holds 255: it is
neither 0 nor 1. -/
theorem sample_grid_corner_not_binary :
    sample_grid_all white_8x8 grid_ff [0] 1 STEP STEP SIGMA
        (white_8x8.x / STEP) (white_8x8.y / STEP) = 255 ∧
    ¬ (sample_grid_all white_8x8 grid_ff [0] 1 STEP STEP SIGMA
          (white_8x8.x / STEP) (white_8x8.y / STEP) = 0 ∨
       sample_grid_all white_8x8 grid_ff [0] 1 STEP STEP SIGMA
          (white_8x8.x / STEP) (white_8x8.y / STEP) = 1) := by
  decide

/-- C4, at a concrete input. On the all-white 8 x 8 image with step 8 and sigma 200,
with a grid buffer whose bytes were all `0xFF`, the configuration code of the last cell
`(p-1, q-1) = (0, 0)` is 254, which is not below 16, and `march` uses a slot outside
the 16 loaded ones. -/
theorem config_last_cell_out_of_range :
    config (sample_grid_all white_8x8 grid_ff [0] 1 STEP STEP SIGMA) 0 0 = 254 ∧
    ¬ (config (sample_grid_all white_8x8 grid_ff [0] 1 STEP STEP SIGMA) 0 0
        < CONTOUR_CONFIG_COUNT) ∧
    (sample_then_march white_8x8 grid_ff (tag_atlas 8 8) [0] [0] 1 STEP STEP SIGMA).isNone
      = true := by
  decide

/-- C5, at a concrete input. With steps 2 x 3, patches of dimensions 2 x 3 and an
all-zero grid, `march` leaves at row 1, column 0 of the image (index `1 * 3 + 0 = 3`)
the patch pixel of index `patch.x * 1 + 0 = 2`, which differs from the patch pixel of
row 1, column 0 under row * y + col indexing (index `1 * patch.y + 0 = 3`). -/
theorem march_patch_index_stride :
    Option.map (fun im => im.data (1 * white_2x3.y + 0))
        (march_all white_2x3 grid_00 (tag_atlas 2 3) [0] 1 2 3) =
      some ((tag_patch 2 3 0).data (2 * 1 + 0)) ∧
    (tag_patch 2 3 0).data (2 * 1 + 0) ≠ (tag_patch 2 3 0).data (1 * (tag_patch 2 3 0).y + 0) := by
  decide

/-- C7, at a concrete input. On the image with `x = 8`, `y = 16` (step 8, `q = 2`),
`sample_grid` computes `grid[0][q]` from the pixel of index `0 * 8 * 16 + 8 - 1 = 7`
(white, value 0), not from the last pixel of row 0, index `0 * 8 * 16 + 16 - 1 = 15`
(black, value 1). -/
theorem sample_grid_last_column_index :
    sample_grid wide_8x16 grid_00 0 1 STEP STEP SIGMA 0 (wide_8x16.y / STEP) = 0 ∧
    sample_grid wide_8x16 grid_00 0 1 STEP STEP SIGMA 0 (wide_8x16.y / STEP) =
      grid_value (wide_8x16.data (0 * STEP * wide_8x16.y + wide_8x16.x - 1)) SIGMA ∧
    grid_value (wide_8x16.data (0 * STEP * wide_8x16.y + wide_8x16.y - 1)) SIGMA = 1 := by
  decide

/-- C8. When the source has `x ≤ 2048` and `y ≤ 2048`, `rescale_image` makes the working
image the source itself and leaves the destination buffer as it was (nothing is
written), for every thread id, thread count and destination buffer; when `x > 2048` or
`y > 2048`, the working image is the buffer that `init_resources` allocated, of
dimensions exactly 2048 x 2048. -/
theorem rescale_image_working {F : Type} (float_div : Nat → Nat → F)
    (sample_bicubic : ppm_image → F → F → ppm_pixel)
    (image : ppm_image) (heap_pixels : Nat → ppm_pixel) (heap_cells : Grid) :
    (image.x ≤ 2048 ∧ image.y ≤ 2048 →
      ∀ (new_image : ppm_image) (thread_id nr_threads : Nat),
        (rescale_image float_div sample_bicubic image new_image thread_id nr_threads).working
          = image ∧
        (rescale_image float_div sample_bicubic image new_image thread_id nr_threads).scaled
          = new_image) ∧
    (2048 < image.x ∨ 2048 < image.y →
      ∀ thread_id nr_threads : Nat,
        (rescale_image float_div sample_bicubic image
          (init_resources heap_pixels heap_cells).scaled_image
          thread_id nr_threads).working.x = 2048 ∧
        (rescale_image float_div sample_bicubic image
          (init_resources heap_pixels heap_cells).scaled_image
          thread_id nr_threads).working.y = 2048) := by
  constructor
  · intro h new_image t n
    have hsmall : image.x ≤ RESCALE_X ∧ image.y ≤ RESCALE_Y := h
    unfold rescale_image
    rw [if_pos hsmall]
    exact ⟨rfl, rfl⟩
  · intro h t n
    have hbig : ¬ (image.x ≤ RESCALE_X ∧ image.y ≤ RESCALE_Y) := by
      unfold RESCALE_X RESCALE_Y
      omega
    exact rescale_image_dims float_div sample_bicubic image _ t n hbig

/-- A 512 x 512 source is its own working image. -/
theorem rescale_image_working_witness :
    (rescale_image (fun _ _ => ()) (fun _ _ _ => black_pixel) white_512
      (init_resources (fun _ => black_pixel) grid_ff).scaled_image 3 4).working = white_512 :=
  ((rescale_image_working (fun _ _ => ()) (fun _ _ _ => black_pixel) white_512
    (fun _ => black_pixel) grid_ff).1 (by decide) _ 3 4).1

/-- C9. For every thread count `nr_threads ≥ 1` (also above 16) and every order of the
workers: each index `k < 16` lies in the range of exactly one worker, a worker's
`init_contour_map` changes no slot outside its own range, and after all workers have
run, every slot `k < 16` holds the image read for `k` while the other slots are
untouched. -/
theorem init_contour_map_partition (read_ppm : Nat → ppm_image) (map : ContourMap)
    (order : List Nat) (nr_threads : Nat) (hn : 1 ≤ nr_threads)
    (hperm : order.Perm (List.range nr_threads)) :
    (∀ k, k < 16 → ∃! t, t < nr_threads ∧
      range_start t CONTOUR_CONFIG_COUNT nr_threads ≤ k ∧
      k < range_end t CONTOUR_CONFIG_COUNT nr_threads) ∧
    (∀ (m : ContourMap) (t k : Nat),
      ¬ (range_start t CONTOUR_CONFIG_COUNT nr_threads ≤ k ∧
        k < range_end t CONTOUR_CONFIG_COUNT nr_threads) →
      init_contour_map read_ppm m t nr_threads k = m k) ∧
    (∀ (m : ContourMap) (t k : Nat),
      range_start t CONTOUR_CONFIG_COUNT nr_threads ≤ k →
      k < range_end t CONTOUR_CONFIG_COUNT nr_threads →
      init_contour_map read_ppm m t nr_threads k = some (read_ppm k)) ∧
    (∀ k, k < 16 →
      init_contour_map_all read_ppm map order nr_threads k = some (read_ppm k)) ∧
    (∀ k, 16 ≤ k → init_contour_map_all read_ppm map order nr_threads k = map k) := by
  refine ⟨?_, ?_, ?_, ?_, ?_⟩
  · intro k hk
    exact owner_exists_unique CONTOUR_CONFIG_COUNT nr_threads k hn hk
  · intro m t k h
    rw [init_contour_map_apply, if_neg]
    intro hmem
    exact h ((mem_thread_rows _ _ _ _).mp hmem)
  · intro m t k h1 h2
    rw [init_contour_map_apply, if_pos ((mem_thread_rows _ _ _ _).mpr ⟨h1, h2⟩)]
  · intro k hk
    rw [init_contour_map_all_apply read_ppm map order nr_threads k hn hperm]
    exact if_pos hk
  · intro k hk
    rw [init_contour_map_all_apply read_ppm map order nr_threads k hn hperm]
    exact if_neg (Nat.not_lt.mpr hk)

/-- With 20 workers, slot 15 holds the image read for index 15 after all of them have run. -/
theorem init_contour_map_partition_witness :
    init_contour_map_all (tag_patch 8 8) (fun _ => none) (List.range 20) 20 15 =
      some (tag_patch 8 8 15) :=
  (init_contour_map_partition (tag_patch 8 8) (fun _ => none) (List.range 20) 20
    (by decide) (List.Perm.refl _)).2.2.2.1 15 (by decide)

/-- C10, at a concrete input. Two runs on the same all-white 8 x 8 image, the same
contour map and one thread, whose grid buffers held all-0 and all-1 bytes before, give
different images: pixel 0 comes from patch 0 in one and from patch 2 in the other. -/
theorem output_depends_on_prior_grid :
    Option.map (fun im => im.data 0)
        (sample_then_march white_8x8 grid_00 (tag_atlas 8 8) [0] [0] 1 STEP STEP SIGMA) =
      some ((tag_patch 8 8 0).data 0) ∧
    Option.map (fun im => im.data 0)
        (sample_then_march white_8x8 grid_01 (tag_atlas 8 8) [0] [0] 1 STEP STEP SIGMA) =
      some ((tag_patch 8 8 2).data 0) ∧
    sample_then_march white_8x8 grid_00 (tag_atlas 8 8) [0] [0] 1 STEP STEP SIGMA ≠
      sample_then_march white_8x8 grid_01 (tag_atlas 8 8) [0] [0] 1 STEP STEP SIGMA := by
  have h1 : Option.map (fun im => im.data 0)
      (sample_then_march white_8x8 grid_00 (tag_atlas 8 8) [0] [0] 1 STEP STEP SIGMA) =
      some ((tag_patch 8 8 0).data 0) := by decide
  have h2 : Option.map (fun im => im.data 0)
      (sample_then_march white_8x8 grid_01 (tag_atlas 8 8) [0] [0] 1 STEP STEP SIGMA) =
      some ((tag_patch 8 8 2).data 0) := by decide
  refine ⟨h1, h2, ?_⟩
  intro h
  rw [h, h2] at h1
  revert h1
  decide

/-- C13. For `j < q`, the cell `grid[p][j]` after `sample_grid` holds the value computed
from the pixel of the last row, index `(x - 1) * y + j * stepY`, whatever the thread id
and the thread count; running `sample_grid` again for any further worker, with any
thread count, leaves `grid[p][j]` as it is. -/
theorem sample_grid_last_row (image : ppm_image) (grid : Grid)
    (thread_id nr_threads step_x step_y sigma j : Nat) (hj : j < image.y / step_y) :
    sample_grid image grid thread_id nr_threads step_x step_y sigma (image.x / step_x) j =
      grid_value (image.data ((image.x - 1) * image.y + j * step_y)) sigma ∧
    ∀ t2 n2 : Nat,
      sample_grid image (sample_grid image grid thread_id nr_threads step_x step_y sigma)
          t2 n2 step_x step_y sigma (image.x / step_x) j =
        sample_grid image grid thread_id nr_threads step_x step_y sigma
          (image.x / step_x) j := by
  have key : ∀ (g : Grid) (t n : Nat),
      sample_grid image g t n step_x step_y sigma (image.x / step_x) j =
        grid_value (image.data ((image.x - 1) * image.y + j * step_y)) sigma := by
    intro g t n
    rw [sample_grid_apply, if_pos ⟨rfl, hj⟩]
    rfl
  refine ⟨key grid thread_id nr_threads, ?_⟩
  intro t2 n2
  rw [key _ t2 n2, key grid thread_id nr_threads]

/-- On the 4 x 4 image with steps 2 x 2 (`p = q = 2`), `grid[2][1]` comes from the
pixel of index `3 * 4 + 1 * 2 = 14` (white, value 0) for worker 1 of 2. -/
theorem sample_grid_last_row_witness :
    sample_grid dotted_4x4 grid_ff 1 2 2 2 200 2 1 = 0 :=
  (sample_grid_last_row dotted_4x4 grid_ff 1 2 2 2 200 1 (by decide)).1.trans (by decide)

/-- C17, at a concrete input. On the all-white image with `x = 72`, `y = 8` (a buffer
of `72 * 8 = 576` pixels) with step 8 (`p = 9`, `q = 1`), the second loop of
`sample_grid` reads, for `i = 8`, the pixel of index `8 * 8 * 8 + 72 - 1 = 583`, which
is not below 576. -/
theorem sample_grid_read_outside_buffer :
    8 * STEP * white_72x8.y + white_72x8.x - 1 ∈ sample_grid_reads white_72x8 0 1 STEP STEP ∧
    8 * STEP * white_72x8.y + white_72x8.x - 1 = 583 ∧
    ¬ (8 * STEP * white_72x8.y + white_72x8.x - 1 < white_72x8.x * white_72x8.y) := by
  decide

/-- C18. For a working image with `1 ≤ x ≤ 2048` and `1 ≤ y ≤ 2048` and step 8, every
cell `grid[a][b]` that `sample_grid` writes and every cell that `march` reads, for any
thread id and thread count, has `a ≤ 256` and `b ≤ 256`, so it lies inside the
`257 x 257` cells that `init_resources` allocates. -/
theorem grid_accesses_in_allocation (image : ppm_image) (thread_id nr_threads : Nat)
    (_hx1 : 1 ≤ image.x) (hx2 : image.x ≤ 2048) (_hy1 : 1 ≤ image.y) (hy2 : image.y ≤ 2048) :
    grid_alloc_rows = 257 ∧ grid_alloc_cols = 257 ∧
    (∀ c ∈ sample_grid_cells image thread_id nr_threads STEP STEP,
      c.1 ≤ 256 ∧ c.2 ≤ 256 ∧ c.1 < grid_alloc_rows ∧ c.2 < grid_alloc_cols) ∧
    (∀ c ∈ march_cells image thread_id nr_threads STEP STEP,
      c.1 ≤ 256 ∧ c.2 ≤ 256 ∧ c.1 < grid_alloc_rows ∧ c.2 < grid_alloc_cols) := by
  have hr : grid_alloc_rows = 257 := by decide
  have hc : grid_alloc_cols = 257 := by decide
  have hp : image.x / STEP ≤ 256 := by
    unfold STEP
    omega
  have hq : image.y / STEP ≤ 256 := by
    unfold STEP
    omega
  refine ⟨hr, hc, ?_, ?_⟩
  · rintro ⟨a, b⟩ hmem
    rw [mem_sample_grid_cells] at hmem
    rw [hr, hc]
    rcases hmem with ⟨h1, h2⟩ | ⟨h1, h2⟩ | ⟨h1, h2⟩
    · have := mem_thread_rows_lt _ _ _ _ h1
      simp only
      omega
    · have := mem_thread_rows_lt _ _ _ _ h1
      simp only
      omega
    · simp only
      omega
  · rintro ⟨a, b⟩ hmem
    rw [mem_march_cells] at hmem
    rw [hr, hc]
    obtain ⟨i, hi, j, hj, h⟩ := hmem
    have := mem_thread_rows_lt _ _ _ _ hi
    simp only
    omega

/-- Worker 3 of 4 on the all-white 2048 x 2048 image: its accesses stay within rows and
columns `0..256`. -/
theorem grid_accesses_in_allocation_witness :
    (∀ c ∈ sample_grid_cells white_2048 3 4 STEP STEP, c.1 ≤ 256 ∧ c.2 ≤ 256) ∧
    (∀ c ∈ march_cells white_2048 3 4 STEP STEP, c.1 ≤ 256 ∧ c.2 ≤ 256) :=
  ⟨fun c hc =>
      ⟨((grid_accesses_in_allocation white_2048 3 4 (by decide) (by decide) (by decide)
        (by decide)).2.2.1 c hc).1,
       ((grid_accesses_in_allocation white_2048 3 4 (by decide) (by decide) (by decide)
        (by decide)).2.2.1 c hc).2.1⟩,
   fun c hc =>
      ⟨((grid_accesses_in_allocation white_2048 3 4 (by decide) (by decide) (by decide)
        (by decide)).2.2.2 c hc).1,
       ((grid_accesses_in_allocation white_2048 3 4 (by decide) (by decide) (by decide)
        (by decide)).2.2.2 c hc).2.1⟩⟩

/-- C12, amended. For every working image, grid, step sizes, contour map whose loaded
patches all have the step dimensions, and two distinct thread ids `t1`, `t2` below
`nrThreads`: no pixel index assigned by `march` for `t1` is assigned by `march` for
`t2`. -/
theorem march_indices_disjoint (image : ppm_image) (grid : Grid) (contour_map : ContourMap)
    (nrThreads step_x step_y t1 t2 : Nat)
    (hatlas : ∀ k c, contour_map k = some c → c.x = step_x ∧ c.y = step_y)
    (h1 : t1 < nrThreads) (h2 : t2 < nrThreads) (hne : t1 ≠ t2) :
    ∀ idx, idx ∈ march_indices image grid contour_map t1 nrThreads step_x step_y →
      idx ∉ march_indices image grid contour_map t2 nrThreads step_x step_y := by
  intro idx hm1 hm2
  obtain ⟨a1, a2, _, _⟩ := march_indices_region image grid contour_map t1 nrThreads
    step_x step_y idx hatlas hm1
  obtain ⟨b1, b2, _, _⟩ := march_indices_region image grid contour_map t2 nrThreads
    step_x step_y idx hatlas hm2
  rcases Nat.lt_or_gt_of_ne hne with hlt | hgt
  · have e : range_end t1 (image.x / step_x) nrThreads ≤
        range_start t2 (image.x / step_x) nrThreads := by
      rw [range_end_eq_start t1 _ nrThreads h1]
      exact range_start_mono _ _ (Nat.succ_le_of_lt hlt)
    have e2 := Nat.mul_le_mul_right step_x e
    omega
  · have e : range_end t2 (image.x / step_x) nrThreads ≤
        range_start t1 (image.x / step_x) nrThreads := by
      rw [range_end_eq_start t2 _ nrThreads h2]
      exact range_start_mono _ _ (Nat.succ_le_of_lt hgt)
    have e2 := Nat.mul_le_mul_right step_x e
    omega

/-- On the 4 x 4 image with steps 2 x 2 and patches of 2 x 2 pixels, worker 0 of 2
assigns the pixel 5 and worker 1 does not. -/
theorem march_indices_disjoint_witness :
    5 ∈ march_indices dotted_4x4 grid_00 (tag_atlas 2 2) 0 2 2 2 ∧
    5 ∉ march_indices dotted_4x4 grid_00 (tag_atlas 2 2) 1 2 2 2 :=
  ⟨by decide,
    march_indices_disjoint dotted_4x4 grid_00 (tag_atlas 2 2) 2 2 2 0 1 (tag_atlas_dims 2 2)
      (by decide) (by decide) (by decide) 5 (by decide)⟩

/-- C12 as stated fails for a contour map whose patches are larger than the step. On
the all-white 5 x 5 image with steps 2 x 2, two workers and patches of 3 x 3 pixels,
the pixel of row 2, column 0 (index 10) is assigned by `march` for worker 0 (cell
`(0, 0)`, patch pixel 6) and by `march` for worker 1 (cell `(1, 0)`, patch pixel 0). -/
theorem march_indices_overlap_large_patches :
    10 ∈ march_indices white_5x5 grid_00 (tag_atlas 3 3) 0 2 2 2 ∧
    10 ∈ march_indices white_5x5 grid_00 (tag_atlas 3 3) 1 2 2 2 ∧
    Option.map (fun im => im.data 10) (march white_5x5 grid_00 (tag_atlas 3 3) 0 2 2 2) =
      some ((tag_patch 3 3 0).data 6) ∧
    Option.map (fun im => im.data 10) (march white_5x5 grid_00 (tag_atlas 3 3) 1 2 2 2) =
      some ((tag_patch 3 3 0).data 0) ∧
    white_5x5.data 10 ≠ (tag_patch 3 3 0).data 6 ∧
    white_5x5.data 10 ≠ (tag_patch 3 3 0).data 0 := by
  decide

/-- C14. When the source has `x > 2048` or `y > 2048` and `nr_threads ≥ 1`, with the
2048 x 2048 destination of `init_resources`: worker `t` assigns exactly the pixels of
index `i * 2048 + j` with `i` in its row range and `j < 2048`, each once; every index
below `2048 * 2048` is assigned by exactly one of the workers `0..nr_threads-1`, and no
other index is assigned; an assigned pixel receives the sample of the source image as
it was passed in, and every other pixel of the destination keeps its content. The
source is only read. -/
theorem rescale_image_covers_once {F : Type} (float_div : Nat → Nat → F)
    (sample_bicubic : ppm_image → F → F → ppm_pixel)
    (image : ppm_image) (heap_pixels : Nat → ppm_pixel) (heap_cells : Grid)
    (nr_threads : Nat) (hbig : 2048 < image.x ∨ 2048 < image.y) (hn : 1 ≤ nr_threads) :
    (∀ t idx,
      idx ∈ rescale_image_indices image (init_resources heap_pixels heap_cells).scaled_image
          t nr_threads ↔
        ∃ i j, range_start t 2048 nr_threads ≤ i ∧ i < range_end t 2048 nr_threads ∧
          j < 2048 ∧ idx = i * 2048 + j) ∧
    (∀ t,
      (rescale_image_indices image (init_resources heap_pixels heap_cells).scaled_image
        t nr_threads).Nodup) ∧
    (∀ idx, idx < 2048 * 2048 →
      ∃! t, t < nr_threads ∧
        idx ∈ rescale_image_indices image (init_resources heap_pixels heap_cells).scaled_image
          t nr_threads) ∧
    (∀ t idx,
      idx ∈ rescale_image_indices image (init_resources heap_pixels heap_cells).scaled_image
          t nr_threads →
        idx < 2048 * 2048) ∧
    (∀ (t : Nat) (dest : ppm_image) (idx : Nat), dest.x = 2048 → dest.y = 2048 →
      (rescale_image float_div sample_bicubic image dest t nr_threads).scaled.data idx =
        if idx ∈ rescale_image_indices image dest t nr_threads then
          sample_bicubic image (float_div (idx / 2048) 2047) (float_div (idx % 2048) 2047)
        else dest.data idx) := by
  have hb : ¬ (image.x ≤ RESCALE_X ∧ image.y ≤ RESCALE_Y) := by
    unfold RESCALE_X RESCALE_Y
    omega
  have hchar : ∀ t idx,
      idx ∈ rescale_image_indices image (init_resources heap_pixels heap_cells).scaled_image
          t nr_threads ↔
        ∃ i j, range_start t 2048 nr_threads ≤ i ∧ i < range_end t 2048 nr_threads ∧
          j < 2048 ∧ idx = i * 2048 + j := by
    intro t idx
    rw [mem_rescale_image_indices image _ t nr_threads idx hb]
    show (∃ i ∈ thread_rows t 2048 nr_threads, ∃ j < 2048, idx = i * 2048 + j) ↔ _
    constructor
    · rintro ⟨i, hi, j, hj, h⟩
      obtain ⟨h1, h2⟩ := (mem_thread_rows _ _ _ _).mp hi
      exact ⟨i, j, h1, h2, hj, h⟩
    · rintro ⟨i, j, h1, h2, hj, h⟩
      exact ⟨i, (mem_thread_rows _ _ _ _).mpr ⟨h1, h2⟩, j, hj, h⟩
  refine ⟨hchar, fun t => rescale_image_indices_nodup _ _ t nr_threads, ?_, ?_, ?_⟩
  · intro idx hidx
    have hi : idx / 2048 < 2048 := by omega
    obtain ⟨t, ⟨ht, h1, h2⟩, huniq⟩ := owner_exists_unique 2048 nr_threads (idx / 2048) hn hi
    refine ⟨t, ⟨ht, (hchar t idx).mpr ⟨idx / 2048, idx % 2048, h1, h2, by omega, by omega⟩⟩, ?_⟩
    rintro u ⟨hu, hmem⟩
    obtain ⟨i, j, g1, g2, gj, ge⟩ := (hchar u idx).mp hmem
    have hi2 : idx / 2048 = i := by omega
    apply huniq u
    rw [hi2]
    exact ⟨hu, g1, g2⟩
  · intro t idx hmem
    obtain ⟨i, j, _, g2, gj, ge⟩ := (hchar t idx).mp hmem
    have := range_end_le t 2048 nr_threads
    omega
  · intro t dest idx hx hy
    have h := rescale_image_apply float_div sample_bicubic image dest t nr_threads idx hb
    rw [hx, hy] at h
    exact h

/-- Scenario A's source of 4096 x 4096 pixels with 4 workers: the pixel of row 2,
column 904 (index 5000) is assigned by worker 0, whose rows are `0..511`. -/
theorem rescale_image_covers_once_witness :
    5000 ∈ rescale_image_indices white_4096
        (init_resources (fun _ => black_pixel) grid_ff).scaled_image 0 4 ↔
      ∃ i j, range_start 0 2048 4 ≤ i ∧ i < range_end 0 2048 4 ∧ j < 2048 ∧
        5000 = i * 2048 + j :=
  (rescale_image_covers_once (fun _ _ => ()) (fun _ _ _ => black_pixel) white_4096
    (fun _ => black_pixel) grid_ff 4 (by decide) (by decide)).1 0 5000

/-- C11, at a concrete input. On the all-white 2048 x 2048 image with step 8, sigma 200
and four workers: with a grid buffer whose bytes were all `0xFF`, the corner cell
`grid[256][256]` still holds 255 after sampling and the configuration code of the last
cell `(255, 255)` is 254; with a grid buffer whose bytes were all 1, the corner holds 1,
the code of the last cell is 2, and the last pixel of the image (row 2047, column 2047)
ends as pixel `8 * 7 + 7` of patch 2, not of patch 0. -/
theorem scenario_a_last_cell :
    sample_grid_all white_2048 grid_ff [0, 1, 2, 3] 4 STEP STEP SIGMA 256 256 = 255 ∧
    config (sample_grid_all white_2048 grid_ff [0, 1, 2, 3] 4 STEP STEP SIGMA) 255 255 = 254 ∧
    sample_grid_all white_2048 grid_01 [0, 1, 2, 3] 4 STEP STEP SIGMA 256 256 = 1 ∧
    config (sample_grid_all white_2048 grid_01 [0, 1, 2, 3] 4 STEP STEP SIGMA) 255 255 = 2 ∧
    Option.map (fun im => im.data (2047 * 2048 + 2047))
        (sample_then_march white_2048 grid_01 (tag_atlas 8 8) [0, 1, 2, 3] [0, 1, 2, 3] 4
          STEP STEP SIGMA) =
      some ((tag_patch 8 8 2).data (8 * 7 + 7)) ∧
    (tag_patch 8 8 2).data (8 * 7 + 7) ≠
      (tag_patch 8 8 0).data (8 * (2047 % 8) + 2047 % 8) := by
  have hff := sample_grid_all_eq white_2048 grid_ff [0, 1, 2, 3] 4 STEP STEP SIGMA
    (by decide) perm_0123
  have h01 := sample_grid_all_eq white_2048 grid_01 [0, 1, 2, 3] 4 STEP STEP SIGMA
    (by decide) perm_0123
  refine ⟨?_, ?_, ?_, ?_, ?_, by decide⟩
  · rw [hff]; decide
  · rw [hff]; decide
  · rw [h01]; decide
  · rw [h01]; decide
  · unfold sample_then_march
    rw [h01]
    have W := march_all_writes (sampled_grid white_2048 grid_01 STEP STEP SIGMA)
      (tag_atlas 8 8) [0, 1, 2, 3] 4 STEP STEP 2048 2048 white_2048.data
      (tag_atlas_dims 8 8) white_2048 rfl rfl
    have hok : ∀ t ∈ [0, 1, 2, 3], ∀ i ∈ thread_rows t (2048 / STEP) 4,
        ∀ j ∈ List.range (2048 / STEP),
        (tag_atlas 8 8 (config (sampled_grid white_2048 grid_01 STEP STEP SIGMA) i j)).isSome
          = true := by
      intro t _ i _ j _
      apply tag_atlas_isSome
      apply config_lt_16
      intro a b
      exact sampled_grid_le_one _ _ _ _ _ a b (fun _ _ => Nat.le_refl 1)
    have hsome : (march_all white_2048 (sampled_grid white_2048 grid_01 STEP STEP SIGMA)
        (tag_atlas 8 8) [0, 1, 2, 3] 4 STEP STEP).isSome = true := W.1.mpr hok
    cases hm : march_all white_2048 (sampled_grid white_2048 grid_01 STEP STEP SIGMA)
        (tag_atlas 8 8) [0, 1, 2, 3] 4 STEP STEP with
    | none =>
      rw [hm] at hsome
      exact absurd hsome (by simp)
    | some img =>
      have hpix := (W.2 img hm).2.1 (2047 * 2048 + 2047)
        ⟨3, by decide, 255, by decide, 255, by decide, 7, by decide, 7, by decide, by decide⟩
      show some (img.data (2047 * 2048 + 2047)) = _
      rw [hpix]
      decide

/-- C16, amended. For `0 ≤ t < nrThreads` and `N ≥ 0` with `(t + 1) * N < 2 ^ 53`, the
bounds computed in binary64 arithmetic and truncated equal the integer quotients
`t * N / nrThreads` and `(t + 1) * N / nrThreads`, and the clamp
`if (end > N) end = N` does not change `end`; so they are the bounds `range_start` and
`range_end` that the other theorems use. -/
theorem double_bounds_exact (t N nrThreads : Nat) (ht : t < nrThreads)
    (h : (t + 1) * N < 2 ^ 53) :
    double_start t N nrThreads = t * N / nrThreads ∧
    double_end_unclamped t N nrThreads = (t + 1) * N / nrThreads ∧
    double_end t N nrThreads = double_end_unclamped t N nrThreads ∧
    double_start t N nrThreads = range_start t N nrThreads ∧
    double_end t N nrThreads = range_end t N nrThreads := by
  have hn : 0 < nrThreads := Nat.lt_of_le_of_lt (Nat.zero_le t) ht
  have h0 : t * N < 2 ^ 53 :=
    Nat.lt_of_le_of_lt (Nat.mul_le_mul_right N (Nat.le_succ t)) h
  have hs := double_start_exact t N nrThreads hn h0
  have he : double_end_unclamped t N nrThreads = (t + 1) * N / nrThreads :=
    double_start_exact (t + 1) N nrThreads hn h
  have hle : (t + 1) * N / nrThreads ≤ N :=
    Nat.div_le_of_le_mul (Nat.mul_le_mul_right N ht)
  have hc : double_end t N nrThreads = double_end_unclamped t N nrThreads := by
    unfold double_end
    rw [if_neg]
    rw [he]
    exact Nat.not_lt.mpr hle
  refine ⟨hs, he, hc, hs, ?_⟩
  rw [hc, he, range_end_eq t N nrThreads ht]

/-- Thread 2 of 8 over `N = 2048` rows: `start = 512` and `end = 768` in binary64
arithmetic. -/
theorem double_bounds_exact_witness :
    double_start 2 2048 8 = 2 * 2048 / 8 ∧
    double_end_unclamped 2 2048 8 = (2 + 1) * 2048 / 8 ∧
    double_end 2 2048 8 = double_end_unclamped 2 2048 8 ∧
    double_start 2 2048 8 = range_start 2 2048 8 ∧
    double_end 2 2048 8 = range_end 2 2048 8 :=
  double_bounds_exact 2 2048 8 (by decide) (by decide)

/-- C16 as stated fails at the top of the `int` range. For `N = 2 ^ 31 - 1`,
`nrThreads = 2 ^ 30 + 257` and the last thread `t = 2 ^ 30 + 256`, the product
`(t + 1) * N` needs 62 bits and is rounded down by 255 to a multiple of 512; the
quotient then rounds to `N - 2 ^ (-22)`, so `end` is `2147483646`, while the integer
quotient `(t + 1) * N / nrThreads` is `2147483647 = N`. -/
theorem double_end_differs_at_int_max :
    2 ^ 30 + 256 < 2 ^ 30 + 257 ∧ 2 ^ 30 + 257 < 2 ^ 31 ∧
    double_to_int (double_mul (2 ^ 30 + 256 + 1) (2 ^ 31 - 1)) =
      (2 ^ 30 + 256 + 1) * (2 ^ 31 - 1) - 255 ∧
    double_end_unclamped (2 ^ 30 + 256) (2 ^ 31 - 1) (2 ^ 30 + 257) = 2147483646 ∧
    double_end (2 ^ 30 + 256) (2 ^ 31 - 1) (2 ^ 30 + 257) = 2147483646 ∧
    (2 ^ 30 + 256 + 1) * (2 ^ 31 - 1) / (2 ^ 30 + 257) = 2147483647 ∧
    range_end (2 ^ 30 + 256) (2 ^ 31 - 1) (2 ^ 30 + 257) = 2147483647 := by
  decide

/-- C15. In every interleaving of the `nr_threads` workers running `thread_function`:
when a worker has started `sample_grid`, every worker has finished `init_contour_map`
and `rescale_image`; when a worker has started `march`, every worker has finished
`sample_grid`; when thread 0 has started `write_ppm`, every worker has finished
`march`. -/
theorem barrier_phase_order (nr_threads : Nat) (schedule : List Nat) (t u : Nat)
    (ht : t < nr_threads) (hu : u < nr_threads) :
    (∀ k j, thread_function k = statement.sample_grid →
      started k (run_threads nr_threads schedule) t →
      (thread_function j = statement.init_contour_map ∨
        thread_function j = statement.rescale_image) →
      finished j (run_threads nr_threads schedule) u) ∧
    (∀ k j, thread_function k = statement.march →
      started k (run_threads nr_threads schedule) t →
      thread_function j = statement.sample_grid →
      finished j (run_threads nr_threads schedule) u) ∧
    (∀ k j, thread_function k = statement.write_ppm →
      started k (run_threads nr_threads schedule) 0 →
      thread_function j = statement.march →
      finished j (run_threads nr_threads schedule) u) := by
  have hinv := run_threads_inv nr_threads schedule
  have h0 : 0 < nr_threads := Nat.lt_of_le_of_lt (Nat.zero_le t) ht
  have ktu := hinv.2.1 t u ht hu
  have k0u := hinv.2.1 0 u h0 hu
  unfold started finished
  refine ⟨?_, ?_, ?_⟩
  · intro k j hk hs hj
    rw [thread_function_sample] at hk
    rw [thread_function_first] at hj
    have := ktu.1 (by omega)
    omega
  · intro k j hk hs hj
    rw [thread_function_march] at hk
    rw [thread_function_sample] at hj
    have := ktu.2.1 (by omega)
    omega
  · intro k j hk hs hj
    rw [thread_function_write] at hk
    rw [thread_function_march] at hj
    have := k0u.2.2 (by omega)
    omega

set_option maxRecDepth 100000 in
/-- Two workers taking turns until both are at `pthread_exit` (position 16). Before
that, worker 0 alone stays blocked in the first barrier (position 5) however often it is
picked, and once worker 1 has arrived both are released and worker 1 can start
`sample_grid` (position 7). -/
theorem barrier_phase_order_witness :
    (run_threads 2 [0, 0, 0, 0, 0, 0, 0, 0]).pc 0 = 5 ∧
    (run_threads 2 [0, 0, 0, 0, 0, 1, 1, 1, 1, 1, 1]).pc 0 = 6 ∧
    (run_threads 2 [0, 0, 0, 0, 0, 1, 1, 1, 1, 1, 1]).pc 1 = 7 ∧
    (run_threads 2 round_robin_2).pc 0 = 16 ∧
    (run_threads 2 round_robin_2).pc 1 = 16 ∧
    ((∀ k j, thread_function k = statement.sample_grid →
      started k (run_threads 2 round_robin_2) 1 →
      (thread_function j = statement.init_contour_map ∨
        thread_function j = statement.rescale_image) →
      finished j (run_threads 2 round_robin_2) 0) ∧
    (∀ k j, thread_function k = statement.march →
      started k (run_threads 2 round_robin_2) 1 →
      thread_function j = statement.sample_grid →
      finished j (run_threads 2 round_robin_2) 0) ∧
    (∀ k j, thread_function k = statement.write_ppm →
      started k (run_threads 2 round_robin_2) 0 →
      thread_function j = statement.march →
      finished j (run_threads 2 round_robin_2) 0)) :=
  ⟨by decide, by decide, by decide, by decide, by decide,
    barrier_phase_order 2 round_robin_2 1 0 (by decide) (by decide)⟩

end MarchingSquares
